import Mathlib

/-!
# Worker pool (`internal/workerpool/worker_pool.go`)

A shallow embedding of the worker pool and the properties proved about it.

* Part I   – clock, durations, contexts as timelines, `Task.Do`, and the body of
  the worker loop for one task (lines 72-88), with explicit instants.
* Part II  – `generator` as a machine that yields one queue operation at a time.
* Part III – `Worker.start` as a machine driven by the outcome of its selects,
  with its stack of deferred calls; `Worker.close`.
* Part IV  – `MainWorkerpool`: all goroutines together, one atomic step of one
  goroutine (or of the environment: a signal, a lapsed deadline) at a time.

Go's `int` and `time.Duration` are 64-bit; they are integers here, wrapped by
`wrap64` wherever the program does arithmetic on them at run time.

Part I keeps the instants of all events, for the questions that depend on which
of a deadline and a timer comes first. Parts III and IV leave time out: a deadline
or a timer may fire at any step, and a select with several ready cases may take
any of them, as in Go. Every outcome of the timed `Task.Do` is a step of the untimed
worker (`Do_cancelled_ctx_done`).
-/

namespace Workerpool

/-! ## Part I: time, contexts, `Task.Do` -/

/-- Go `time.Second`. Instants (readings of the monotonic clock) and durations
(`time.Duration`) are integers, in nanoseconds. -/
def Second : Int := 1000000000

/-- Two's complement wrap-around of a 64-bit signed integer. -/
def wrap64 (x : Int) : Int :=
  (x + 9223372036854775808) % 18446744073709551616 - 9223372036854775808

/-- Largest value of a Go `int` (64-bit). -/
def maxInt : Int := 9223372036854775807

/-- Line 14. -/
def countTasks : Int := 10

/-- Line 15. -/
def countWorkers : Int := 3

/-- Line 16. -/
def totalWorkTimeOut : Int := 10 * Second

/-- Line 17. -/
def taskTimeOut : Int := 4 * Second

/-- The non-nil values of `ctx.Err()`; `nil` is `none`. -/
inductive CtxErr
  | Canceled
  | DeadlineExceeded
deriving DecidableEq, Repr

/-- Lines 19-22. -/
structure Task where
  ID : Int
  Duration : Int
deriving DecidableEq, Repr

/-- Lines 46-50. `Queue` is the identity of the channel. -/
structure Worker where
  ID : Int
  Queue : Nat
  closeWorker : Bool
deriving DecidableEq, Repr

/-- The lines the program prints, without their formatting. -/
inductive Msg
  | taskStarted (id : Int) (d : Int)      -- line 29
  | taskCancelled (id : Int)                   -- line 35
  | taskCompleted (id : Int)                   -- line 39
  | workerClosed (w : Int)                     -- line 67
  | workerBegan (w : Int) (id : Int)           -- line 75
  | taskInterrupted (id : Int)                 -- line 83
  | taskExpired (id : Int)                     -- line 85
  | workerFinished (w : Int) (id : Int)        -- line 87
  | workerCancelled (w : Int)                  -- line 92
  | shutdownStart                              -- line 164
  | allWorkersDone                             -- line 168
  | timeExpired                                -- line 171
  | totalInterrupted                           -- line 177
  | totalExpired                               -- line 179
  | finish                                     -- line 182
deriving DecidableEq, Repr

/-- A context seen as a timeline: the instant of its deadline, and the instant of
the cancel call that reaches it (its own or an ancestor's), when there is one. -/
structure Ctx where
  deadline : Option Int
  cancelAt : Option Int
deriving DecidableEq, Repr

/-- Earlier of two optional instants. -/
def earlier : Option Int → Option Int → Option Int
  | some a, some b => some (min a b)
  | some a, none => some a
  | none, b => b

/-- The instant `ctx.Done()` is closed, when it ever is. -/
def Ctx.doneAt (c : Ctx) : Option Int := earlier c.deadline c.cancelAt

/-- Value of `ctx.Err()` read at instant `now`: the first of deadline and cancel
call to happen decides the error, once it has happened. -/
def Ctx.Err (c : Ctx) (now : Int) : Option CtxErr :=
  match c.cancelAt, c.deadline with
  | some k, some d =>
    if k < d then (if k ≤ now then some .Canceled else none)
    else (if d ≤ now then some .DeadlineExceeded else none)
  | some k, none => if k ≤ now then some .Canceled else none
  | none, some d => if d ≤ now then some .DeadlineExceeded else none
  | none, none => none

/-- Time left at `now` until the context is done (0 when it already is). -/
def Ctx.untilDone (c : Ctx) (now : Int) : Option Int :=
  c.doneAt.map (fun k => max (k - now) 0)

/-- Go `context.WithTimeout(parent, timeout)` called at `now`: the child's deadline
is `now + timeout` unless the parent's is earlier, and a cancel of the parent reaches
the child. (The child's own cancel function is not called before the worker
returns, line 73, so it does not appear on the timeline of a task run.) -/
def WithTimeout (parent : Ctx) (timeout : Int) (now : Int) : Ctx :=
  { deadline := earlier (some (now + timeout)) parent.deadline
    cancelAt := parent.cancelAt }

/-- The two ways out of the select of `Task.Do`. -/
inductive DoBranch
  | cancelled   -- line 34: `<-ctx.Done()`
  | completed   -- line 38: `<-time.After(t.Duration)`
deriving DecidableEq, Repr

/-- What a call of `Task.Do` did. -/
structure DoResult where
  branch : DoBranch
  ret : Int
  out : List Msg
deriving DecidableEq, Repr

/-- Lines 25-44. The select is entered at `enter`, where `time.After` arms a timer
that delivers at `enter + t.Duration` (at once when the duration is not positive).
The case whose channel becomes ready first is taken; when both become ready at the
same instant (or are both ready on entry) Go picks either, here `tie`. Each case
returns, so the `for` runs its body once. -/
def Task.Do (t : Task) (ctx : Ctx) (enter : Int) (tie : DoBranch) : DoResult :=
  let timer : Int := enter + max t.Duration 0
  let started := Msg.taskStarted t.ID t.Duration
  let cancelled (at_ : Int) : DoResult :=
    ⟨.cancelled, at_, [started, .taskCancelled t.ID]⟩
  let completed : DoResult := ⟨.completed, timer, [started, .taskCompleted t.ID]⟩
  match ctx.doneAt with
  | none => completed
  | some c =>
    let done : Int := max c enter
    if done < timer then cancelled done
    else if timer < done then completed
    else match tie with
      | .cancelled => cancelled done
      | .completed => completed

/-- Lines 81-88: the worker's switch on `ctxTaskTimeOut.Err()`. -/
def classify (w : Worker) (t : Task) : Option CtxErr → Msg
  | some .Canceled => .taskInterrupted t.ID
  | some .DeadlineExceeded => .taskExpired t.ID
  | none => .workerFinished w.ID t.ID

/-- What the worker did with one task. -/
structure TaskRun where
  branch : DoBranch
  err : Option CtxErr
  out : List Msg
deriving DecidableEq, Repr

/-- Lines 72-88 of `Worker.start` for a task received under the pool-wide context
`ctx`: `WithTimeout` reads the clock at `now`, the select of `Do` is entered `lat1`
nanoseconds later, and `Err()` is read `lat2` nanoseconds after `Do` returned. -/
def Worker.runTask (w : Worker) (ctx : Ctx) (t : Task) (now : Int) (lat1 lat2 : Nat)
    (tie : DoBranch) : TaskRun :=
  let ctxTaskTimeOut := WithTimeout ctx taskTimeOut now
  let r := t.Do ctxTaskTimeOut (now + lat1) tie
  let err := ctxTaskTimeOut.Err (r.ret + lat2)
  ⟨r.branch, err, [Msg.workerBegan w.ID t.ID] ++ r.out ++ [classify w t err]⟩

/-! ## Part II: `generator` -/

/-- Source of pseudo-random numbers: its raw draws, in order. -/
abbrev RandSource := Nat → Nat

/-- Go `rand.Intn(n)` on the `k`-th draw: a value in `[0, n)`. -/
def Intn (src : RandSource) (k : Nat) (n : Nat) : Int := ((src k % n : Nat) : Int)

/-- What the generator does to the outside, one operation at a time. -/
inductive GenOp
  | send (t : Task)   -- line 115: `queue <- t`
  | closeQueue        -- line 120: `close(queue)`
  | wgDone            -- line 106: deferred `wg.Done()`
deriving DecidableEq, Repr

/-- Where the generator is. -/
inductive GPc
  | loop       -- line 109, about to test `i <= countT`
  | exiting    -- queue closed, deferred call pending
  | returned
deriving DecidableEq, Repr

/-- Local state of `generator`: its parameter, its loop variable, the number of
draws taken from the random source. -/
structure GState where
  countT : Int
  i : Int
  draws : Nat
  pc : GPc
deriving DecidableEq, Repr

/-- Entry of `generator(queue, countT, wg)`: `defer wg.Done()`, then `i := 1`. -/
def generator (countT : Int) : GState := ⟨countT, 1, 0, .loop⟩

/-- Lines 109-121: the next operation of the generator and its state once that
operation has gone through (a send goes through when a worker receives it). -/
def GState.next (src : RandSource) (g : GState) : Option (GenOp × GState) :=
  match g.pc with
  | .loop =>
    if g.i ≤ g.countT then
      let t : Task := ⟨g.i, wrap64 (wrap64 (Intn src g.draws 9 + 1) * Second)⟩
      some (.send t, { g with i := wrap64 (g.i + 1), draws := g.draws + 1 })
    else
      some (.closeQueue, { g with pc := .exiting })
  | .exiting => some (.wgDone, { g with pc := .returned })
  | .returned => none

/-- The first `fuel` operations of the generator when every queue write is
accepted. -/
def GState.ops (src : RandSource) : Nat → GState → List GenOp
  | 0, _ => []
  | fuel + 1, g =>
    match g.next src with
    | none => []
    | some (op, g1) => op :: GState.ops src fuel g1

/-- The task the generator builds for loop index `k + 1` from the `k`-th draw. -/
def nthTask (src : RandSource) (k : Nat) : Task :=
  ⟨(k : Int) + 1, (Intn src k 9 + 1) * Second⟩

/-! ## Part III: `Worker.start`, `Worker.close` -/

/-- Line 101, on the receiver variable of `close`. -/
def Worker.closeBody (receiver : Worker) : Worker :=
  { receiver with closeWorker := true }

/-- Lines 100-102, seen from the caller: `close` has a value receiver, so its body
runs on a copy of `w` that is dropped at return; the result is the caller's `w`
after the call. -/
def Worker.close (w : Worker) : Worker :=
  let receiver := w
  let _dropped := receiver.closeBody
  w

/-- The three `return`s of `Worker.start`. -/
inductive Exit
  | closing       -- line 59
  | queueClosed   -- line 68
  | ctxDone       -- line 93
deriving DecidableEq, Repr

/-- Where a worker is. -/
inductive WPc
  | top                   -- line 58, about to test `w.closeWorker`
  | select                -- line 62
  | inDo (t : Task)       -- inside `t.Do`, at its select (line 32)
  | inspect (t : Task)    -- `Do` returned, line 81 is next
  | returned (e : Exit)
deriving DecidableEq, Repr

/-- A deferred call. -/
inductive Deferred
  | wgDone                   -- line 54
  | taskCancel (id : Int)    -- line 73, for the context of task `id`
deriving DecidableEq, Repr

/-- Local state of a running `Worker.start`. `tctx` is the present value of
`ctxTaskTimeOut.Err()`; `defers` is the stack of deferred calls, latest first;
`released` lists the tasks whose `taskCancelTimeOut` has been called; `wgDones`
counts the calls of `wg.Done()`; `out` is what the worker printed. -/
structure WState where
  w : Worker
  pc : WPc
  tctx : Option CtxErr
  defers : List Deferred
  released : List Int
  wgDones : Nat
  out : List Msg
deriving DecidableEq, Repr

/-- Entry of `w.start(ctx, wg)`: line 54 defers `wg.Done()`. -/
def Worker.start (w : Worker) : WState :=
  ⟨w, .top, none, [.wgDone], [], 0, []⟩

/-- Whether the worker has left `Worker.start`. -/
def WState.returned (s : WState) : Bool :=
  match s.pc with
  | .returned _ => true
  | _ => false

/-- Number of task-scoped contexts derived and not yet released. -/
def WState.unreleased (s : WState) : Nat :=
  (s.defers.filter (fun d => d != Deferred.wgDone)).length

/-- The task of a deferred `taskCancelTimeOut`. -/
def Deferred.task : Deferred → Option Int
  | .wgDone => none
  | .taskCancel id => some id

/-- A `return` of `Worker.start`: the deferred calls run, latest first. -/
def WState.unwind (s : WState) (e : Exit) : WState :=
  { s with
    pc := .returned e
    defers := []
    released := s.released ++ s.defers.filterMap Deferred.task
    wgDones := s.wgDones + s.defers.count .wgDone }

/-- What a worker can be made to do next: the outcome of the test of line 58, of
the select of line 62, of the select inside `Do`, and the switch of line 81. -/
inductive WEvent
  | test
  | recv (t : Task) (parentErr : Option CtxErr)   -- line 64 with `ok`, then lines 72-78
  | recvClosed                                    -- line 64 without `ok`
  | ctxDone                                       -- line 91
  | leave (b : DoBranch)                          -- `Do` takes branch `b` and returns
  | inspect                                       -- lines 81-88
deriving DecidableEq, Repr

/-- Lines 53-97, one step. On `recv t parentErr` the worker derives
`ctxTaskTimeOut` from the pool-wide context, whose `Err()` is `parentErr` at that
moment (a child of a done context is done from the start, with the same error),
defers its cancel function and enters `t.Do`. Inside `Do` the branch of `ctx.Done()`
needs the task context to be done; the timer may have fired at any moment. -/
def WState.step (s : WState) : WEvent → Option WState
  | .test =>
    match s.pc with
    | .top => if s.w.closeWorker then some (s.unwind .closing) else some { s with pc := .select }
    | _ => none
  | .recv t parentErr =>
    match s.pc with
    | .select =>
      some { s with
        pc := .inDo t
        tctx := parentErr
        defers := .taskCancel t.ID :: s.defers
        out := s.out ++ [.workerBegan s.w.ID t.ID, .taskStarted t.ID t.Duration] }
    | _ => none
  | .recvClosed =>
    match s.pc with
    | .select => some (WState.unwind { s with out := s.out ++ [.workerClosed s.w.ID] } .queueClosed)
    | _ => none
  | .ctxDone =>
    match s.pc with
    | .select => some (WState.unwind { s with out := s.out ++ [.workerCancelled s.w.ID] } .ctxDone)
    | _ => none
  | .leave b =>
    match s.pc with
    | .inDo t =>
      match b with
      | .cancelled =>
        if s.tctx.isSome then
          some { s with pc := .inspect t, out := s.out ++ [.taskCancelled t.ID] }
        else none
      | .completed => some { s with pc := .inspect t, out := s.out ++ [.taskCompleted t.ID] }
    | _ => none
  | .inspect =>
    match s.pc with
    | .inspect t => some { s with pc := .top, out := s.out ++ [classify s.w t s.tctx] }
    | _ => none

/-- A worker alone, driven through a list of events. -/
def WState.run (s : WState) : List WEvent → Option WState
  | [] => some s
  | e :: es => (s.step e).bind (fun s1 => s1.run es)

/-- Whether the worker holds a task-scoped context that is in use. -/
def WState.inTask (s : WState) : Bool :=
  match s.pc with
  | .inDo _ => true
  | .inspect _ => true
  | _ => false

/-- The task context of the worker ends with error `e`, if it is in use and not
yet done: its own deadline lapsed, or the pool-wide context ended. -/
def WState.expire (e : CtxErr) (s : WState) : WState :=
  if s.inTask && s.tctx.isNone then { s with tctx := some e } else s

/-! ## Part IV: `MainWorkerpool` -/

/-- The values `MainWorkerpool` takes from constants and from the runtime. -/
structure Config where
  countWorkers : Int
  countTasks : Int
  src : RandSource

/-- The configuration of the source (lines 14-15) for a given random source. -/
def Config.ofSource (src : RandSource) : Config :=
  ⟨Workerpool.countWorkers, Workerpool.countTasks, src⟩

/-- The three cases of the coordinator's select. -/
inductive Branch
  | shutdown   -- line 163: `<-sigChan`
  | done       -- line 167: `<-doneChan`
  | timeout    -- line 170: `<-ctxTotalTimeOut.Done()`
deriving DecidableEq, Repr

/-- Where the coordinator is. -/
inductive CPc
  | spawning (i : Int)                              -- line 144, about to test `i <= countWorkers`
  | addGen                                          -- line 148
  | goGen                                           -- line 151
  | goWaiter                                        -- lines 154-159
  | select                                          -- line 161
  | cancelling                                      -- line 165
  | inspect (b : Branch)                            -- line 175
  | finishing (b : Branch) (e : Option CtxErr)      -- line 182
  | terminated (b : Branch) (e : Option CtxErr)     -- returned
deriving DecidableEq, Repr

/-- Where the goroutine of lines 156-159 is. -/
inductive WaitPc
  | absent    -- not started yet
  | waiting   -- line 157, in `wg.Wait()`
  | closing   -- line 158 is next
  | done
deriving DecidableEq, Repr

/-- State of a run of `MainWorkerpool`. `wg` is the counter of the wait group;
`ctxErr` is the present `ctxTotalTimeOut.Err()`; `sigPending` says that `sigChan`
holds a signal; `lapsed` records that the pool-wide deadline has passed;
`doneCloses` counts the executions of `close(doneChan)`; `dispatch` lists, in
order, each task received from the queue with the index of the worker that
received it and called `Do` on it; `out` is what the coordinator printed. -/
structure Pool where
  wg : Int
  queueClosed : Bool
  ctxErr : Option CtxErr
  lapsed : Bool
  sigPending : Bool
  doneClosed : Bool
  doneCloses : Nat
  coord : CPc
  workers : List WState
  gen : Option GState
  waiter : WaitPc
  dispatch : List (Nat × Task)
  out : List Msg
deriving DecidableEq, Repr

/-- Entry of `MainWorkerpool`, after lines 125-138. -/
def Pool.init : Pool :=
  { wg := 0, queueClosed := false, ctxErr := none, lapsed := false, sigPending := false
    doneClosed := false, doneCloses := 0, coord := .spawning 1, workers := []
    gen := none, waiter := .absent, dispatch := [], out := [] }

/-- The pool-wide context ends with error `e` unless it has ended before; the
task contexts derived from it end with it. -/
def Pool.endCtx (e : CtxErr) (s : Pool) : Pool :=
  match s.ctxErr with
  | some _ => s
  | none => { s with ctxErr := some e, workers := s.workers.map (WState.expire e) }

/-- Lines 185-196 for the worker with identity `id`. -/
def addWorker (id : Int) (s : Pool) : Pool :=
  let worker : Worker := { ID := id, Queue := 0, closeWorker := false }
  { s with wg := s.wg + 1, workers := s.workers ++ [worker.start] }

/-- Lines 175-180: what the coordinator prints for the error it reads. -/
def verdict : Option CtxErr → List Msg
  | some .Canceled => [.totalInterrupted]
  | some .DeadlineExceeded => [.totalExpired]
  | none => []

/-- What worker `k` is made to do. -/
inductive WChoice
  | test
  | recv
  | recvClosed
  | ctxDone
  | leave (b : DoBranch)
  | inspect
deriving DecidableEq, Repr

/-- One atomic step of the run. -/
inductive Action
  | signal                             -- the process receives SIGINT or SIGTERM
  | deadline                           -- the pool-wide deadline lapses
  | taskDeadline (k : Nat)             -- the deadline of the task context of worker `k` lapses
  | coord                              -- next statement of the coordinator (not its select)
  | select (b : Branch)                -- the coordinator's select takes case `b`
  | gen                                -- next operation of the generator other than a send
  | worker (k : Nat) (c : WChoice)     -- worker `k` moves
  | waiter                             -- the goroutine of lines 156-159 moves
deriving DecidableEq, Repr

/-- The next statement of the coordinator, lines 144-183 without the select. -/
def Pool.coordStep (cfg : Config) (s : Pool) : Option Pool :=
  match s.coord with
  | .spawning i =>
    if i ≤ cfg.countWorkers then
      some { addWorker i s with coord := .spawning (wrap64 (i + 1)) }
    else some { s with coord := .addGen }
  | .addGen => some { s with wg := s.wg + 1, coord := .goGen }
  | .goGen => some { s with gen := some (generator cfg.countTasks), coord := .goWaiter }
  | .goWaiter => some { s with waiter := .waiting, coord := .select }
  | .select => none
  | .cancelling => some { s.endCtx .Canceled with coord := .inspect .shutdown }
  | .inspect b =>
    some { s with out := s.out ++ verdict s.ctxErr, coord := .finishing b s.ctxErr }
  | .finishing b e =>
    some { Pool.endCtx .Canceled { s with out := s.out ++ [.finish] } with
      coord := .terminated b e }
  | .terminated _ _ => none

/-- Lines 161-172: the select takes a case that is ready. -/
def Pool.selectStep (s : Pool) (b : Branch) : Option Pool :=
  match s.coord with
  | .select =>
    match b with
    | .shutdown =>
      if s.sigPending then
        some { s with sigPending := false, out := s.out ++ [.shutdownStart], coord := .cancelling }
      else none
    | .done =>
      if s.doneClosed then
        some { s with out := s.out ++ [.allWorkersDone], coord := .inspect .done }
      else none
    | .timeout =>
      if s.ctxErr.isSome then
        some { s with out := s.out ++ [.timeExpired], coord := .inspect .timeout }
      else none
  | _ => none

/-- The generator closes the queue or calls `wg.Done()`; its sends are part of
the step of the worker that receives. -/
def Pool.genStep (cfg : Config) (s : Pool) : Option Pool :=
  match s.gen with
  | none => none
  | some g =>
    match g.next cfg.src with
    | some (.closeQueue, g1) => some { s with queueClosed := true, gen := some g1 }
    | some (.wgDone, g1) => some { s with wg := s.wg - 1, gen := some g1 }
    | _ => none

/-- The task the generator is blocked sending, and its state once it is received. -/
def Pool.offered (cfg : Config) (s : Pool) : Option (Task × GState) :=
  match s.gen with
  | none => none
  | some g =>
    match g.next cfg.src with
    | some (.send t, g1) => some (t, g1)
    | _ => none

/-- The event worker `k` sees for choice `c`, when the shared state allows it:
a receive needs the generator blocked in its send, the closed-queue case needs the
queue closed, the `ctx.Done()` case needs the pool-wide context done. -/
def Pool.event (cfg : Config) (s : Pool) : WChoice → Option WEvent
  | .test => some .test
  | .recv => (s.offered cfg).map (fun p => .recv p.1 s.ctxErr)
  | .recvClosed => if s.queueClosed then some .recvClosed else none
  | .ctxDone => if s.ctxErr.isSome then some .ctxDone else none
  | .leave b => some (.leave b)
  | .inspect => some .inspect

/-- Worker `k` moves; a receive moves the generator past its send, a return calls
the deferred `wg.Done()`. -/
def Pool.workerStep (cfg : Config) (s : Pool) (k : Nat) (c : WChoice) : Option Pool :=
  match s.workers[k]? with
  | none => none
  | some ws =>
    match s.event cfg c with
    | none => none
    | some ev =>
      match ws.step ev with
      | none => none
      | some ws1 =>
        let s1 : Pool :=
          { s with
            workers := s.workers.set k ws1
            wg := s.wg - ((ws1.wgDones - ws.wgDones : Nat) : Int) }
        match c, s.offered cfg with
        | .recv, some (t, g1) =>
          some { s1 with gen := some g1, dispatch := s.dispatch ++ [(k, t)] }
        | _, _ => some s1

/-- Lines 156-159: `wg.Wait()` returns when the counter is 0, then `doneChan` is
closed. -/
def Pool.waiterStep (s : Pool) : Option Pool :=
  match s.waiter with
  | .waiting => if s.wg = 0 then some { s with waiter := .closing } else none
  | .closing =>
    some { s with doneClosed := true, doneCloses := s.doneCloses + 1, waiter := .done }
  | _ => none

/-- One step of the run; `none` when the action is not possible in `s`. -/
def Pool.step (cfg : Config) (s : Pool) : Action → Option Pool
  | .signal => some { s with sigPending := true }
  | .deadline => some { s.endCtx .DeadlineExceeded with lapsed := true }
  | .taskDeadline k =>
    match s.workers[k]? with
    | none => none
    | some ws => some { s with workers := s.workers.set k (ws.expire .DeadlineExceeded) }
  | .coord => s.coordStep cfg
  | .select b => s.selectStep b
  | .gen => s.genStep cfg
  | .worker k c => s.workerStep cfg k c
  | .waiter => s.waiterStep

/-- A run from `s` through a list of actions. -/
def Pool.run (cfg : Config) (s : Pool) : List Action → Option Pool
  | [] => some s
  | a :: as => (s.step cfg a).bind (fun s1 => s1.run cfg as)

/-- Lines 123-183 with all the goroutines they start: the state `MainWorkerpool`
is in after the steps `as`, when these steps are possible in that order. -/
def MainWorkerpool (cfg : Config) (as : List Action) : Option Pool :=
  Pool.init.run cfg as

/-- The states a run of `MainWorkerpool` can be in. -/
def Reachable (cfg : Config) (s : Pool) : Prop :=
  ∃ as : List Action, MainWorkerpool cfg as = some s

/-- Whether the generator has returned. -/
def Pool.genReturned (s : Pool) : Bool :=
  match s.gen with
  | some g => g.pc == GPc.returned
  | none => false

/-- Every spawned worker and the generator have returned. -/
def Pool.allReturned (s : Pool) : Bool :=
  s.workers.all WState.returned && s.genReturned

/-- Number of workers still inside `Worker.start`. -/
def Pool.running (s : Pool) : Nat :=
  s.workers.countP (fun w => !w.returned)

/-- Whether a case of the select of worker `k` other than `ctx.Done()` is ready:
the queue is closed or the generator is blocked in a send. -/
def Pool.queueReady (cfg : Config) (s : Pool) : Bool :=
  s.queueClosed || (s.offered cfg).isSome

/-! ## Invariants -/

/-- What holds of a worker started by `addWorker` at every moment: its closing
flag is unset; while it runs, `wg.Done()` is deferred once and not yet called and
no task context has been released; once it has returned, nothing is deferred any
more and `wg.Done()` has been called once; it did not return through line 59. -/
def WState.ok (s : WState) : Prop :=
  s.w.closeWorker = false ∧
  (s.returned = false → s.defers.count .wgDone = 1 ∧ s.wgDones = 0 ∧ s.released = []) ∧
  (s.returned = true → s.defers = [] ∧ s.wgDones = 1) ∧
  s.pc ≠ .returned .closing

/-- How far the coordinator is. -/
def CPc.phase : CPc → Nat
  | .spawning _ => 0
  | .addGen => 1
  | .goGen => 2
  | .goWaiter => 3
  | .select => 4
  | .cancelling => 5
  | .inspect _ => 6
  | .finishing _ _ => 7
  | .terminated _ _ => 8

/-- The case the coordinator's select took, once it has. -/
def CPc.branch : CPc → Option Branch
  | .cancelling => some .shutdown
  | .inspect b => some b
  | .finishing b _ => some b
  | .terminated b _ => some b
  | _ => none

/-- 1 while the generator is counted in the wait group (from line 148 on) and has
not returned, else 0. -/
def Pool.genPending (s : Pool) : Nat :=
  if 2 ≤ s.coord.phase ∧ s.genReturned = false then 1 else 0

/-- The wait group and the completion signal: the counter is the number of
workers and generator it was raised for that have not returned; the generator
exists from line 151 on and the waiting goroutine from line 156 on; that goroutine
gets past `wg.Wait()` only when all have returned; `doneChan` is closed exactly when
that goroutine has finished, which it does once; the coordinator is on the
`doneChan` branch only if `doneChan` is closed. -/
def WgInv (s : Pool) : Prop :=
  (∀ ws ∈ s.workers, ws.ok) ∧
  s.wg = (s.running : Int) + (s.genPending : Int) ∧
  (s.gen.isSome = true ↔ 3 ≤ s.coord.phase) ∧
  (s.waiter ≠ .absent ↔ 4 ≤ s.coord.phase) ∧
  (s.waiter = .closing ∨ s.waiter = .done → s.allReturned = true) ∧
  (s.doneClosed = true ↔ s.waiter = .done) ∧
  s.doneCloses = (if s.waiter = .done then 1 else 0) ∧
  (s.coord.branch = some .done → s.doneClosed = true)

/-- The line the coordinator prints on taking a case of its select. -/
def branchMsg : Branch → Msg
  | .shutdown => .shutdownStart
  | .done => .allWorkersDone
  | .timeout => .timeExpired

/-- What the coordinator has printed when it is at a given place. -/
def CPc.printed : CPc → List Msg
  | .cancelling => [.shutdownStart]
  | .inspect b => [branchMsg b]
  | .finishing b e => branchMsg b :: verdict e
  | .terminated b e => branchMsg b :: verdict e ++ [.finish]
  | _ => []

/-- How the error `e` that the coordinator read relates to the case `b` its select
took: on the `ctx.Done()` case it is `DeadlineExceeded`; on the signal case it is
`Canceled` or `DeadlineExceeded`; on the `doneChan` case it is nil or
`DeadlineExceeded`; and it is `DeadlineExceeded` only if the deadline has lapsed. -/
def Outcome (lapsed : Bool) (b : Branch) (e : Option CtxErr) : Prop :=
  (b = .timeout → e = some .DeadlineExceeded) ∧
  (b = .shutdown → e = some .Canceled ∨ e = some .DeadlineExceeded) ∧
  (b = .done → e = none ∨ e = some .DeadlineExceeded) ∧
  (e = some .DeadlineExceeded → lapsed = true)

/-- What the place of the coordinator says about the pool-wide context. -/
def CtxAt (s : Pool) : CPc → Prop
  | .inspect .shutdown => s.ctxErr.isSome = true
  | .inspect .timeout => s.ctxErr = some .DeadlineExceeded
  | .inspect .done => s.ctxErr ≠ some .Canceled
  | .finishing b e => Outcome s.lapsed b e
  | .terminated b e => Outcome s.lapsed b e ∧ s.ctxErr.isSome = true
  | _ => s.ctxErr ≠ some .Canceled

/-- The pool-wide context along a run: it ends with `DeadlineExceeded` only when
the deadline lapsed; the coordinator printed what its place says; once the
pool-wide context is done, so is the context of every task being run; and the
place of the coordinator bounds the error of the context as `CtxAt` says. -/
def CtxInv (s : Pool) : Prop :=
  (s.ctxErr = some .DeadlineExceeded → s.lapsed = true) ∧
  s.out = s.coord.printed ∧
  (s.ctxErr.isSome = true → ∀ ws ∈ s.workers, ws.inTask = true → ws.tctx.isSome = true) ∧
  CtxAt s s.coord

/-- The generator and the queue along a run: every task received went to a worker
that exists; before the generator starts nothing is received and the queue is open;
the queue is open while the generator is in its loop; a generator whose `countT`
is `maxInt` or more never leaves its loop; otherwise, at loop index `n + 1` the tasks
received so far are the first `n` tasks, in order, and once the loop is left the queue
is closed and the tasks received are all `countTasks` tasks, in order. -/
def GenInv (cfg : Config) (s : Pool) : Prop :=
  (∀ p ∈ s.dispatch, p.1 < s.workers.length) ∧
  match s.gen with
  | none => s.dispatch = [] ∧ s.queueClosed = false
  | some g =>
    g.countT = cfg.countTasks ∧ g.i ≤ maxInt ∧
    (g.pc = .loop → s.queueClosed = false) ∧
    (maxInt ≤ cfg.countTasks → g.pc = .loop) ∧
    (cfg.countTasks < maxInt →
      (g.pc = .loop → ∃ n : Nat, g.i = (n : Int) + 1 ∧ g.draws = n ∧
          (n : Int) ≤ max cfg.countTasks 0 ∧
          s.dispatch.map Prod.snd = (List.range n).map (nthTask cfg.src)) ∧
      (g.pc ≠ .loop → s.queueClosed = true ∧
          s.dispatch.map Prod.snd = (List.range cfg.countTasks.toNat).map (nthTask cfg.src)))

/-! ## Sample runs with the constants of the source -/

/-- The configuration of the source with a random source whose draws are all 0, so
that every task lasts one second. -/
def sourceCfg : Config := Config.ofSource (fun _ => 0)

/-- The state a run through `as` ends in (`Pool.init` if the run is not possible). -/
def Pool.after (cfg : Config) (as : List Action) : Pool :=
  (MainWorkerpool cfg as).getD Pool.init

/-- Lines 144-159: three workers, the generator and the waiting goroutine are
started and the coordinator arrives at its select. -/
def startup : List Action := List.replicate 7 .coord

/-- Worker 0 receives task 1 and is inside `Do`, worker 1 is at its select, worker 2
has not run yet; the pool-wide deadline lapses; the coordinator takes the
`ctx.Done()` case and returns. -/
def timedOutRun : List Action :=
  startup ++ [.worker 0 .test, .worker 0 .recv, .worker 1 .test, .deadline, .select .timeout,
    .coord, .coord]

/-- A signal arrives and the coordinator takes the signal case; the pool-wide
deadline lapses before line 165 is executed; then the coordinator reads `Err()`. -/
def shutdownRun : List Action :=
  startup ++ [.signal, .select .shutdown, .deadline, .coord, .coord]

/-- Worker 0 is at its select, the generator is blocked sending task 1, and the
pool-wide deadline lapses. -/
def lateReceiveRun : List Action :=
  startup ++ [.worker 0 .test, .deadline]

/-- Worker 0 takes a task and runs it to completion, and is back at line 58. -/
def oneTask : List Action :=
  [.worker 0 .test, .worker 0 .recv, .worker 0 (.leave .completed), .worker 0 .inspect]

/-- Worker 0 runs all ten tasks, the generator closes the queue and returns, the
three workers find the queue closed and return, and `doneChan` is closed. -/
def completedRun : List Action :=
  startup ++ (List.replicate 10 oneTask).flatten ++
    [.gen, .gen, .worker 0 .test, .worker 0 .recvClosed, .worker 1 .test, .worker 1 .recvClosed,
      .worker 2 .test, .worker 2 .recvClosed, .waiter, .waiter]

/-- Worker 0 runs all ten tasks, the generator closes the queue and returns, and
the three workers find the queue closed and return; the goroutine of lines 156-159
has not moved yet. -/
def allReturnedRun : List Action :=
  startup ++ (List.replicate 10 oneTask).flatten ++
    [.gen, .gen, .worker 0 .test, .worker 0 .recvClosed, .worker 1 .test, .worker 1 .recvClosed,
      .worker 2 .test, .worker 2 .recvClosed]

/-- After a completed run the coordinator takes the `doneChan` case; the pool-wide
deadline lapses before line 175 is executed; then the coordinator reads `Err()`. -/
def completedLateRun : List Action :=
  completedRun ++ [.select .done, .deadline, .coord]

/-- The task whose `Do` printed the line, for a line 29. -/
def Msg.started : Msg → Option Task
  | .taskStarted id d => some ⟨id, d⟩
  | _ => none

/-- The tasks on which the worker has called `Do`, in the order of the calls: those
whose line 29 (the first statement of `Do` that prints) is in its output. -/
def WState.started (s : WState) : List Task := s.out.filterMap Msg.started

/-- The tasks worker `k` received, in order, according to `dispatch`. -/
def Pool.receivedBy (s : Pool) (k : Nat) : List Task :=
  (s.dispatch.filter (fun p => p.1 == k)).map Prod.snd

/-- Every worker has called `Do` on exactly the tasks it received, in the order in
which it received them. -/
def DoInv (s : Pool) : Prop :=
  ∀ k ws, s.workers[k]? = some ws → ws.started = s.receivedBy k

/-! # Properties -/

/-! ## Contexts and `Task.Do` -/

theorem doneAt_withTimeout (ctx : Ctx) (d : Int) (now : Int) :
    ∃ c, (WithTimeout ctx d now).doneAt = some c ∧ c ≤ now + d := by
  rcases ctx with ⟨_ | dl, _ | k⟩ <;>
    simp only [WithTimeout, Ctx.doneAt, earlier, Option.some.injEq, exists_eq_left'] <;> omega

theorem err_isSome_of_doneAt (c : Ctx) (k now : Int) (h : c.doneAt = some k) (hk : k ≤ now) :
    c.Err now = some .Canceled ∨ c.Err now = some .DeadlineExceeded := by
  rcases c with ⟨_ | d, _ | k2⟩ <;>
    simp only [Ctx.doneAt, earlier, Option.some.injEq, reduceCtorEq] at h <;>
    simp only [Ctx.Err] <;> (try split_ifs) <;> (try simp) <;> omega

theorem err_none_of_lt (c : Ctx) (now : Int) (h : ∀ k, c.doneAt = some k → now < k) :
    c.Err now = none := by
  rcases c with ⟨_ | d, _ | k2⟩ <;>
    simp only [Ctx.doneAt, earlier, Option.some.injEq, forall_eq', reduceCtorEq,
      false_implies, implies_true] at h <;>
    simp only [Ctx.Err] <;> (try split_ifs) <;> (try simp) <;> omega


/-- When `Do` leaves through the `ctx.Done()` branch, the context is done at the
instant `Do` returns: this is the condition under which the step `leave cancelled`
of the worker machine is possible. -/
theorem Do_cancelled_ctx_done (t : Task) (ctx : Ctx) (enter : Int) (tie : DoBranch)
    (h : (t.Do ctx enter tie).branch = .cancelled) :
    (ctx.Err (t.Do ctx enter tie).ret).isSome = true := by
  unfold Task.Do at h ⊢
  cases hd : ctx.doneAt with
  | none => simp [hd] at h
  | some c =>
    have hsome : ∀ now, max c enter ≤ now → (ctx.Err now).isSome = true := by
      intro now hnow
      rcases err_isSome_of_doneAt ctx c now hd (by omega) with he | he <;> rw [he] <;> rfl
    simp only [hd] at h ⊢
    split_ifs at h ⊢ with h1 h2
    · exact hsome _ (le_refl _)
    · cases tie
      · exact hsome _ (le_refl _)
      · simp at h

theorem untilDone_withTimeout (dl now : Int) (h : now ≤ dl) :
    (WithTimeout ⟨some dl, none⟩ taskTimeOut now).untilDone now =
      some (min taskTimeOut (dl - now)) := by
  simp only [WithTimeout, Ctx.untilDone, Ctx.doneAt, earlier, Option.map_some', Option.some.injEq,
    taskTimeOut, Second]
  omega

/-- C2: a task whose context is done after a time `τ` (counted from the creation of
the task context) that is less than the planned duration leaves `Task.Do` through
the `ctx.Done()` branch and is reported cancelled, never completed; the error the
worker then reads is `Canceled` or `DeadlineExceeded`, so its switch does not take
the default case. Without a cancel of the pool, `τ` is the smaller of `taskTimeOut`
and what is left of the pool-wide budget. -/
theorem runTask_cancelled_of_untilDone_lt (w : Worker) (ctx : Ctx) (t : Task) (now : Int)
    (lat1 lat2 : Nat) (tie : DoBranch) (τ : Int)
    (hτ : (WithTimeout ctx taskTimeOut now).untilDone now = some τ) (hlt : τ < t.Duration) :
    (∃ e, (e = CtxErr.Canceled ∨ e = CtxErr.DeadlineExceeded) ∧
      w.runTask ctx t now lat1 lat2 tie =
        ⟨.cancelled, some e,
          [.workerBegan w.ID t.ID, .taskStarted t.ID t.Duration, .taskCancelled t.ID,
            classify w t (some e)]⟩ ∧
      classify w t (some e) ≠ .workerFinished w.ID t.ID) ∧
    (∀ dl, ctx = ⟨some dl, none⟩ → now ≤ dl → τ = min taskTimeOut (dl - now)) := by
  obtain ⟨c, hc, -⟩ := doneAt_withTimeout ctx taskTimeOut now
  have hτ2 := hτ
  simp only [Ctx.untilDone, hc, Option.map_some', Option.some.injEq] at hτ
  have hlt1 : max c (now + lat1) < now + lat1 + max t.Duration 0 := by omega
  have hdo : t.Do (WithTimeout ctx taskTimeOut now) (now + lat1) tie =
      ⟨.cancelled, max c (now + lat1), [.taskStarted t.ID t.Duration, .taskCancelled t.ID]⟩ := by
    simp only [Task.Do, hc, hlt1, if_true]
  refine ⟨?_, ?_⟩
  · rcases err_isSome_of_doneAt _ c (max c (now + lat1) + lat2) hc (by omega) with he | he
    · exact ⟨.Canceled, Or.inl rfl, by simp [Worker.runTask, hdo, he], by simp [classify]⟩
    · exact ⟨.DeadlineExceeded, Or.inr rfl, by simp [Worker.runTask, hdo, he],
        by simp [classify]⟩
  · intro dl hctx hle
    subst hctx
    rw [untilDone_withTimeout dl now hle] at hτ2
    exact (Option.some.inj hτ2).symm

/-- Instance of the theorem for C2: a task of 5 s under `taskTimeOut` = 4 s. -/
theorem runTask_cancelled_of_untilDone_lt_witness :
    (WithTimeout ⟨some (10 * Second), none⟩ taskTimeOut 0).untilDone 0 = some (4 * Second) ∧
    4 * Second < (⟨1, 5 * Second⟩ : Task).Duration ∧
    ∃ e, (e = CtxErr.Canceled ∨ e = CtxErr.DeadlineExceeded) ∧
      Worker.runTask ⟨1, 0, false⟩ ⟨some (10 * Second), none⟩ ⟨1, 5 * Second⟩ 0 1000 1000
          .completed =
        ⟨.cancelled, some e,
          [.workerBegan 1 1, .taskStarted 1 (5 * Second), .taskCancelled 1,
            classify ⟨1, 0, false⟩ ⟨1, 5 * Second⟩ (some e)]⟩ ∧
      classify ⟨1, 0, false⟩ ⟨1, 5 * Second⟩ (some e) ≠ .workerFinished 1 1 :=
  ⟨by decide, by decide,
    (runTask_cancelled_of_untilDone_lt ⟨1, 0, false⟩ ⟨some (10 * Second), none⟩ ⟨1, 5 * Second⟩
      0 1000 1000 .completed (4 * Second) (by decide) (by decide)).1⟩

/-- C3, as stated, fails at its boundary: a task of 4 s received one second into
the run under `taskTimeOut` = 4 s, with no cancel of the pool and the pool deadline
at 10 s, whose timer is armed one microsecond after its context was derived, leaves
`Do` through the `ctx.Done()` branch and is classified `DeadlineExceeded`, whichever
way ties are broken. -/
theorem runTask_boundary_cancelled :
    (⟨7, 4 * Second⟩ : Task).Duration ≤ taskTimeOut ∧
    Worker.runTask ⟨1, 0, false⟩ ⟨some totalWorkTimeOut, none⟩ ⟨7, 4 * Second⟩ Second 1000 1000
        .completed =
      ⟨.cancelled, some .DeadlineExceeded,
        [.workerBegan 1 7, .taskStarted 7 (4 * Second), .taskCancelled 7, .taskExpired 7]⟩ ∧
    Worker.runTask ⟨1, 0, false⟩ ⟨some totalWorkTimeOut, none⟩ ⟨7, 4 * Second⟩ Second 1000 1000
        .cancelled =
      ⟨.cancelled, some .DeadlineExceeded,
        [.workerBegan 1 7, .taskStarted 7 (4 * Second), .taskCancelled 7, .taskExpired 7]⟩ := by
  decide

theorem runTask_completed_of_fit (w : Worker) (ctx : Ctx) (t : Task) (now : Int)
    (lat1 lat2 : Nat) (tie : DoBranch)
    (hfit : lat1 + max t.Duration 0 + lat2 < taskTimeOut)
    (hpool : ∀ k, ctx.doneAt = some k → now + lat1 + max t.Duration 0 + lat2 < k) :
    w.runTask ctx t now lat1 lat2 tie =
      ⟨.completed, none,
        [.workerBegan w.ID t.ID, .taskStarted t.ID t.Duration, .taskCompleted t.ID,
          .workerFinished w.ID t.ID]⟩ := by
  obtain ⟨c, hc, hcle⟩ := doneAt_withTimeout ctx taskTimeOut now
  have hck : now + lat1 + max t.Duration 0 + lat2 < c := by
    rcases ctx with ⟨_ | dl, _ | k⟩ <;>
      simp only [WithTimeout, Ctx.doneAt, earlier, Option.some.injEq, forall_eq', reduceCtorEq,
        false_implies, implies_true] at hc hpool <;> omega
  have h1 : ¬ max c (now + lat1) < now + lat1 + max t.Duration 0 := by omega
  have h2 : now + lat1 + max t.Duration 0 < max c (now + lat1) := by omega
  have hdo : t.Do (WithTimeout ctx taskTimeOut now) (now + lat1) tie =
      ⟨.completed, now + lat1 + max t.Duration 0,
        [.taskStarted t.ID t.Duration, .taskCompleted t.ID]⟩ := by
    simp only [Task.Do, hc, h1, h2, if_true, if_false]
  have herr : (WithTimeout ctx taskTimeOut now).Err (now + lat1 + max t.Duration 0 + lat2) =
      none := by
    apply err_none_of_lt
    intro k hk
    rw [hc] at hk
    cases hk
    exact hck
  simp [Worker.runTask, hdo, herr, classify]

theorem runTask_boundary (w : Worker) (ctx : Ctx) (t : Task) (now : Int)
    (lat1 lat2 : Nat) (tie : DoBranch) (hd : t.Duration = taskTimeOut) (hl : 0 < lat1)
    (hpool : ∀ k, ctx.doneAt = some k → now + taskTimeOut ≤ k) :
    w.runTask ctx t now lat1 lat2 tie =
      ⟨.cancelled, some .DeadlineExceeded,
        [.workerBegan w.ID t.ID, .taskStarted t.ID t.Duration, .taskCancelled t.ID,
          .taskExpired t.ID]⟩ := by
  have htt : taskTimeOut = 4000000000 := by decide
  have hc : (WithTimeout ctx taskTimeOut now).doneAt = some (now + taskTimeOut) := by
    rcases ctx with ⟨_ | dl, _ | k⟩ <;>
      simp only [WithTimeout, Ctx.doneAt, earlier, Option.some.injEq, forall_eq', reduceCtorEq,
        false_implies, implies_true] at hpool ⊢ <;> omega
  have hlt1 : max (now + taskTimeOut) (now + lat1) < now + lat1 + max t.Duration 0 := by
    rw [hd]; omega
  have hdo : t.Do (WithTimeout ctx taskTimeOut now) (now + lat1) tie =
      ⟨.cancelled, max (now + taskTimeOut) (now + lat1),
        [.taskStarted t.ID t.Duration, .taskCancelled t.ID]⟩ := by
    simp only [Task.Do, hc, hlt1, if_true]
  have herr : (WithTimeout ctx taskTimeOut now).Err
      (max (now + taskTimeOut) (now + lat1) + lat2) = some .DeadlineExceeded := by
    rcases ctx with ⟨_ | dl, _ | k⟩ <;>
      simp only [WithTimeout, Ctx.doneAt, earlier, Option.some.injEq, forall_eq', reduceCtorEq,
        false_implies, implies_true] at hpool <;>
      simp only [WithTimeout, Ctx.Err, earlier] <;> split_ifs <;> first | rfl | omega
  simp [Worker.runTask, hdo, herr, classify]

/-- C3 (amended): when the planned duration, the delay between the creation of the
task context and the arming of the timer in `Do`, and the delay between the return
of `Do` and the reading of `Err()` add up to less than `taskTimeOut`, and the
pool-wide context is not done before that reading, the task leaves `Do` through the
timer branch, is reported completed, and the worker's switch takes the default
case. At the boundary, for every task whose planned duration equals `taskTimeOut`,
whenever the timer is armed later than the task context was created and the
pool-wide context is not done before the deadline of the task context, the task
leaves `Do` through the `ctx.Done()` branch, is reported cancelled, and the error
read is `DeadlineExceeded`, whatever the tie-break and the second delay. -/
theorem runTask_timeout_ge_duration (w : Worker) (ctx : Ctx) (t : Task) (now : Int)
    (lat1 lat2 : Nat) (tie : DoBranch) :
    (lat1 + max t.Duration 0 + lat2 < taskTimeOut →
      (∀ k, ctx.doneAt = some k → now + lat1 + max t.Duration 0 + lat2 < k) →
      w.runTask ctx t now lat1 lat2 tie =
        ⟨.completed, none,
          [.workerBegan w.ID t.ID, .taskStarted t.ID t.Duration, .taskCompleted t.ID,
            .workerFinished w.ID t.ID]⟩) ∧
    (t.Duration = taskTimeOut → 0 < lat1 →
      (∀ k, ctx.doneAt = some k → now + taskTimeOut ≤ k) →
      w.runTask ctx t now lat1 lat2 tie =
        ⟨.cancelled, some .DeadlineExceeded,
          [.workerBegan w.ID t.ID, .taskStarted t.ID t.Duration, .taskCancelled t.ID,
            .taskExpired t.ID]⟩) :=
  ⟨runTask_completed_of_fit w ctx t now lat1 lat2 tie,
    runTask_boundary w ctx t now lat1 lat2 tie⟩

/-- Instance of the amended C3: under `taskTimeOut` = 4 s and delays of one
microsecond, a task of 3 s is reported completed and a task of 4 s cancelled. -/
theorem runTask_timeout_ge_duration_witness :
    ((1000 : Nat) : Int) + max (⟨7, 3 * Second⟩ : Task).Duration 0 + ((1000 : Nat) : Int)
      < taskTimeOut ∧
    Worker.runTask ⟨1, 0, false⟩ ⟨some totalWorkTimeOut, none⟩ ⟨7, 3 * Second⟩ Second 1000 1000
        .cancelled =
      ⟨.completed, none,
        [.workerBegan 1 7, .taskStarted 7 (3 * Second), .taskCompleted 7,
          .workerFinished 1 7]⟩ ∧
    (⟨8, 4 * Second⟩ : Task).Duration = taskTimeOut ∧ 0 < 1000 ∧
    Worker.runTask ⟨1, 0, false⟩ ⟨some totalWorkTimeOut, none⟩ ⟨8, 4 * Second⟩ Second 1000 1000
        .completed =
      ⟨.cancelled, some .DeadlineExceeded,
        [.workerBegan 1 8, .taskStarted 8 (4 * Second), .taskCancelled 8,
          .taskExpired 8]⟩ :=
  ⟨by decide,
    (runTask_timeout_ge_duration ⟨1, 0, false⟩ ⟨some totalWorkTimeOut, none⟩ ⟨7, 3 * Second⟩
      Second 1000 1000 .cancelled).1 (by decide) (by
        intro k hk
        simp only [Ctx.doneAt, earlier, Option.some.injEq] at hk
        subst hk
        decide),
    by decide, by decide,
    (runTask_timeout_ge_duration ⟨1, 0, false⟩ ⟨some totalWorkTimeOut, none⟩ ⟨8, 4 * Second⟩
      Second 1000 1000 .completed).2 (by decide) (by decide) (by
        intro k hk
        simp only [Ctx.doneAt, earlier, Option.some.injEq] at hk
        subst hk
        decide)⟩

/-! ## `generator` -/

theorem wrap64_eq_self (x : Int) (h1 : -9223372036854775808 ≤ x) (h2 : x ≤ maxInt) :
    wrap64 x = x := by
  unfold wrap64 maxInt at *
  omega

theorem wrap64_le_maxInt (x : Int) : wrap64 x ≤ maxInt := by
  unfold wrap64 maxInt
  omega

theorem next_loop_send (src : RandSource) (N d : Nat) (hN : (N : Int) < maxInt) (hd : d < N) :
    GState.next src ⟨N, (d : Int) + 1, d, .loop⟩ =
      some (.send (nthTask src d), ⟨N, ((d + 1 : Nat) : Int) + 1, d + 1, .loop⟩) := by
  have h1 : ((d : Int) + 1 ≤ (N : Int)) := by omega
  have h2 : wrap64 ((d : Int) + 1 + 1) = ((d + 1 : Nat) : Int) + 1 := by
    rw [wrap64_eq_self] <;> unfold maxInt at * <;> omega
  have h3 : wrap64 (wrap64 (Intn src d 9 + 1) * Second) = (Intn src d 9 + 1) * Second := by
    have : 0 ≤ Intn src d 9 ∧ Intn src d 9 < 9 := by unfold Intn; omega
    rw [wrap64_eq_self (Intn src d 9 + 1)] <;> [skip; omega; (unfold maxInt; omega)]
    rw [wrap64_eq_self] <;> simp only [Second, maxInt] <;> omega
  simp only [GState.next, h1, if_true, h2, h3, nthTask]

theorem next_loop_close (src : RandSource) (N : Nat) :
    GState.next src ⟨N, (N : Int) + 1, N, .loop⟩ =
      some (.closeQueue, ⟨N, (N : Int) + 1, N, .exiting⟩) := by
  have h1 : ¬ ((N : Int) + 1 ≤ (N : Int)) := by omega
  simp only [GState.next, h1, if_false]

theorem ops_returned (src : RandSource) (fuel : Nat) (g : GState) (h : g.pc = .returned) :
    g.ops src fuel = [] := by
  cases fuel with
  | zero => rfl
  | succ f => simp [GState.ops, GState.next, h]

theorem ops_from (src : RandSource) (N : Nat) (hN : (N : Int) < maxInt) :
    ∀ (m d fuel : Nat), d + m = N → m + 2 ≤ fuel →
      GState.ops src fuel ⟨N, (d : Int) + 1, d, .loop⟩ =
        (List.range' d m).map (fun k => GenOp.send (nthTask src k)) ++ [.closeQueue, .wgDone] := by
  intro m
  induction m with
  | zero =>
    intro d fuel hd hf
    obtain ⟨f, rfl⟩ : ∃ f, fuel = f + 2 := ⟨fuel - 2, by omega⟩
    have : d = N := by omega
    subst this
    simp [GState.ops, next_loop_close, GState.next, ops_returned]
  | succ m ih =>
    intro d fuel hd hf
    obtain ⟨f, rfl⟩ : ∃ f, fuel = f + 1 := ⟨fuel - 1, by omega⟩
    have h := next_loop_send src N d hN (by omega)
    simp only [GState.ops, h, List.range'_succ, List.map_cons, List.cons_append]
    rw [ih (d + 1) f (by omega) (by omega)]

theorem ops_never_close (src : RandSource) :
    ∀ (fuel : Nat) (g : GState), g.pc = .loop → g.countT = maxInt → g.i ≤ maxInt →
      GenOp.closeQueue ∉ g.ops src fuel ∧ (g.ops src fuel).length = fuel := by
  intro fuel
  induction fuel with
  | zero => intro g _ _ _; simp [GState.ops]
  | succ f ih =>
    intro g hpc hc hi
    have hle : g.i ≤ g.countT := by omega
    obtain ⟨c, i, d, pc⟩ := g
    simp only at hpc hc hi hle
    subst hpc
    have := ih ⟨c, wrap64 (i + 1), d + 1, .loop⟩ rfl hc (wrap64_le_maxInt _)
    simp [GState.ops, GState.next, hle, this]

/-- C1 (amended): for every `countT` with `0 ≤ countT < maxInt` and every random
source, when every queue write is accepted the generator performs exactly `countT`
sends, then closes the queue once, then calls `wg.Done()` and has nothing left to
do; the task of the `k+1`-th send has `ID = k+1` and lasts a whole number of
seconds from 1 to 9, namely `rand.Intn(9)+1`. -/
theorem generator_sends_then_closes (src : RandSource) (countT : Int) (h0 : 0 ≤ countT)
    (hmax : countT < maxInt) (fuel : Nat) (hf : countT.toNat + 2 ≤ fuel) :
    (generator countT).ops src fuel =
      (List.range countT.toNat).map (fun k => GenOp.send (nthTask src k)) ++
        [.closeQueue, .wgDone] ∧
    ∀ k : Nat, (nthTask src k).ID = (k : Int) + 1 ∧
      ∃ secs : Int, 1 ≤ secs ∧ secs ≤ 9 ∧ secs = Intn src k 9 + 1 ∧
        (nthTask src k).Duration = secs * Second := by
  constructor
  · obtain ⟨N, rfl⟩ := Int.eq_ofNat_of_zero_le h0
    have h := ops_from src N hmax N 0 fuel (by omega) (by simpa using hf)
    simpa [generator, List.range_eq_range'] using h
  · intro k
    refine ⟨rfl, Intn src k 9 + 1, ?_, ?_, rfl, rfl⟩ <;> unfold Intn <;> omega

/-- Instance of the amended C1: `countT` = 3. -/
theorem generator_sends_then_closes_witness :
    (0 : Int) ≤ 3 ∧ (3 : Int) < maxInt ∧ (3 : Int).toNat + 2 ≤ 5 ∧
    (generator 3).ops (fun k => k) 5 =
      (List.range (3 : Int).toNat).map (fun k => GenOp.send (nthTask (fun k => k) k)) ++
        [.closeQueue, .wgDone] :=
  ⟨by decide, by decide, by decide,
    (generator_sends_then_closes (fun k => k) 3 (by decide) (by decide) 5 (by decide)).1⟩

/-- C1, as stated, fails for `countT = maxInt`: `i <= countT` then holds for every
value of `i`, the increment wraps around, and however many writes are accepted the
generator never closes the queue. -/
theorem generator_maxInt_never_closes :
    ¬ ∃ fuel : Nat, GenOp.closeQueue ∈ (generator maxInt).ops (fun _ => 0) fuel := by
  rintro ⟨fuel, h⟩
  exact (ops_never_close (fun _ => 0) fuel (generator maxInt) rfl rfl (by decide)).1 h

/-! ## Runs of the pool: the wait group and the completion signal -/

theorem run_induction (cfg : Config) (P : Pool → Prop)
    (hstep : ∀ s a s1, P s → s.step cfg a = some s1 → P s1) :
    ∀ (as : List Action) (s s1 : Pool), P s → s.run cfg as = some s1 → P s1 := by
  intro as
  induction as with
  | nil => intro s s1 hs h; simp only [Pool.run, Option.some.injEq] at h; exact h ▸ hs
  | cons a as ih =>
    intro s s1 hs h
    simp only [Pool.run] at h
    cases h1 : s.step cfg a with
    | none => simp [h1] at h
    | some s2 =>
      rw [h1] at h
      exact ih s2 s1 (hstep s a s2 hs h1) h

theorem WState.ok_start (id : Int) (q : Nat) : (Worker.start ⟨id, q, false⟩).ok := by
  simp [WState.ok, Worker.start, WState.returned]

theorem WState.ok_expire (e : CtxErr) (ws : WState) (h : ws.ok) : (ws.expire e).ok := by
  unfold WState.expire
  split
  · simpa [WState.ok, WState.returned] using h
  · exact h

theorem WState.returned_expire (e : CtxErr) (ws : WState) :
    (ws.expire e).returned = ws.returned := by
  unfold WState.expire
  split <;> simp [WState.returned]

theorem WState.ok_step (ws ws1 : WState) (ev : WEvent) (h : ws.ok) (hs : ws.step ev = some ws1) :
    ws1.ok ∧ ws.returned = false ∧
      (ws1.wgDones - ws.wgDones : Nat) = (if ws1.returned then 1 else 0) := by
  obtain ⟨hc, hrun, hret, hex⟩ := h
  cases ev <;> cases hpc : ws.pc <;>
    simp only [WState.step, hpc, hc, reduceCtorEq, Option.some.injEq, Bool.false_eq_true,
      if_false] at hs <;>
    simp only [WState.returned, hpc, forall_true_left, reduceCtorEq, false_implies] at hrun hret
  case leave.inDo b t =>
    obtain ⟨h1, h2, h3⟩ := hrun
    cases b with
    | cancelled =>
      simp only at hs
      split_ifs at hs
      simp only [Option.some.injEq] at hs
      subst hs
      simp [WState.ok, WState.returned, hpc, hc, h1, h2, h3]
    | completed =>
      simp only [Option.some.injEq] at hs
      subst hs
      simp [WState.ok, WState.returned, hpc, hc, h1, h2, h3]
  all_goals
    obtain ⟨h1, h2, h3⟩ := hrun
    subst hs
    simp [WState.ok, WState.returned, WState.unwind, hpc, hc, h1, h2, h3]

theorem getElem?_set_same {α : Type} (l : List α) (k : Nat) (a b : α) (h : l[k]? = some a) :
    (l.set k b)[k]? = some b := by
  have hk : k < l.length := by
    rcases Nat.lt_or_ge k l.length with h1 | h1
    · exact h1
    · rw [List.getElem?_eq_none h1] at h; cases h
  exact List.getElem?_set_self hk

theorem countP_set_add {α : Type} (p : α → Bool) (l : List α) (k : Nat) (a b : α)
    (h : l[k]? = some a) :
    (l.set k b).countP p + (if p a then 1 else 0) = l.countP p + (if p b then 1 else 0) := by
  induction l generalizing k with
  | nil => simp at h
  | cons x xs ih =>
    cases k with
    | zero =>
      simp only [List.getElem?_cons_zero, Option.some.injEq] at h
      subst h
      simp only [List.set_cons_zero, List.countP_cons]
      omega
    | succ k =>
      simp only [List.getElem?_cons_succ] at h
      have := ih k h
      simp only [List.set_cons_succ, List.countP_cons]
      omega

@[simp] theorem Pool.endCtx_wg (e : CtxErr) (s : Pool) : (s.endCtx e).wg = s.wg := by
  unfold Pool.endCtx; split <;> rfl
@[simp] theorem Pool.endCtx_coord (e : CtxErr) (s : Pool) : (s.endCtx e).coord = s.coord := by
  unfold Pool.endCtx; split <;> rfl
@[simp] theorem Pool.endCtx_gen (e : CtxErr) (s : Pool) : (s.endCtx e).gen = s.gen := by
  unfold Pool.endCtx; split <;> rfl
@[simp] theorem Pool.endCtx_waiter (e : CtxErr) (s : Pool) : (s.endCtx e).waiter = s.waiter := by
  unfold Pool.endCtx; split <;> rfl
@[simp] theorem Pool.endCtx_doneClosed (e : CtxErr) (s : Pool) :
    (s.endCtx e).doneClosed = s.doneClosed := by
  unfold Pool.endCtx; split <;> rfl
@[simp] theorem Pool.endCtx_doneCloses (e : CtxErr) (s : Pool) :
    (s.endCtx e).doneCloses = s.doneCloses := by
  unfold Pool.endCtx; split <;> rfl
@[simp] theorem Pool.endCtx_queueClosed (e : CtxErr) (s : Pool) :
    (s.endCtx e).queueClosed = s.queueClosed := by
  unfold Pool.endCtx; split <;> rfl
@[simp] theorem Pool.endCtx_dispatch (e : CtxErr) (s : Pool) :
    (s.endCtx e).dispatch = s.dispatch := by
  unfold Pool.endCtx; split <;> rfl
@[simp] theorem Pool.endCtx_lapsed (e : CtxErr) (s : Pool) :
    (s.endCtx e).lapsed = s.lapsed := by
  unfold Pool.endCtx; split <;> rfl
@[simp] theorem Pool.endCtx_out (e : CtxErr) (s : Pool) : (s.endCtx e).out = s.out := by
  unfold Pool.endCtx; split <;> rfl
@[simp] theorem Pool.endCtx_sigPending (e : CtxErr) (s : Pool) :
    (s.endCtx e).sigPending = s.sigPending := by
  unfold Pool.endCtx; split <;> rfl

theorem Pool.endCtx_ctxErr (e : CtxErr) (s : Pool) :
    (s.endCtx e).ctxErr = some (s.ctxErr.getD e) := by
  unfold Pool.endCtx; split <;> simp [*]

theorem Pool.endCtx_workers (e : CtxErr) (s : Pool) :
    (s.endCtx e).workers = s.workers ∨ (s.endCtx e).workers = s.workers.map (WState.expire e) := by
  unfold Pool.endCtx; split
  · exact Or.inl rfl
  · exact Or.inr rfl

theorem countP_map_expire (e : CtxErr) (l : List WState) :
    (l.map (WState.expire e)).countP (fun w => !w.returned) =
      l.countP (fun w => !w.returned) := by
  rw [List.countP_map]
  congr 1
  funext w
  simp [WState.returned_expire]

theorem all_map_expire (e : CtxErr) (l : List WState) :
    (l.map (WState.expire e)).all WState.returned = l.all WState.returned := by
  rw [List.all_map]
  congr 1
  funext w
  simp [WState.returned_expire]

@[simp] theorem Pool.endCtx_running (e : CtxErr) (s : Pool) :
    (s.endCtx e).running = s.running := by
  unfold Pool.running
  rcases Pool.endCtx_workers e s with h | h <;> rw [h]
  exact countP_map_expire e _

@[simp] theorem Pool.endCtx_allReturned (e : CtxErr) (s : Pool) :
    (s.endCtx e).allReturned = s.allReturned := by
  unfold Pool.allReturned Pool.genReturned
  rw [Pool.endCtx_gen]
  rcases Pool.endCtx_workers e s with h | h <;> rw [h]
  rw [all_map_expire]

theorem Pool.endCtx_ok (e : CtxErr) (s : Pool) (h : ∀ ws ∈ s.workers, ws.ok) :
    ∀ ws ∈ (s.endCtx e).workers, ws.ok := by
  rcases Pool.endCtx_workers e s with h1 | h1 <;> rw [h1]
  · exact h
  · intro ws hws
    rw [List.mem_map] at hws
    obtain ⟨w0, hw0, rfl⟩ := hws
    exact WState.ok_expire e w0 (h w0 hw0)

theorem WgInv_endCtx (e : CtxErr) (s : Pool) (h : WgInv s) : WgInv (s.endCtx e) := by
  obtain ⟨h1, h2, h3, h4, h5, h6, h7, h8⟩ := h
  refine ⟨Pool.endCtx_ok e s h1, ?_, ?_, ?_, ?_, ?_, ?_, ?_⟩ <;>
    simp only [Pool.endCtx_wg, Pool.endCtx_running, Pool.endCtx_coord, Pool.endCtx_gen,
      Pool.endCtx_waiter, Pool.endCtx_allReturned, Pool.endCtx_doneClosed,
      Pool.endCtx_doneCloses, Pool.genPending, Pool.genReturned] <;>
    first | exact h3 | exact h4 | exact h5 | exact h6 | exact h7 | exact h8 | skip
  simpa [Pool.genPending, Pool.genReturned] using h2

theorem WgInv_set (s : Pool) (k : Nat) (ws ws1 : WState) (wg1 : Int)
    (hk : s.workers[k]? = some ws) (hok : ws1.ok)
    (hwg : wg1 + (if ws.returned then 0 else 1) = s.wg + (if ws1.returned then 0 else 1))
    (hmono : ws.returned = true → ws1.returned = true) (h : WgInv s) :
    WgInv { s with workers := s.workers.set k ws1, wg := wg1 } := by
  obtain ⟨h1, h2, h3, h4, h5, h6, h7, h8⟩ := h
  have hcnt := countP_set_add (fun w : WState => !w.returned) s.workers k ws ws1 hk
  refine ⟨?_, ?_, h3, h4, ?_, h6, h7, h8⟩
  · intro w hw
    rcases List.mem_or_eq_of_mem_set hw with hw | hw
    · exact h1 w hw
    · exact hw ▸ hok
  · simp only [Pool.running, Pool.genPending, Pool.genReturned] at h2 ⊢
    cases hr : ws.returned <;> cases hr1 : ws1.returned <;>
      simp only [hr, hr1, Bool.not_true, Bool.not_false, Bool.false_eq_true, if_false, if_true]
        at hcnt hwg <;> omega
  · intro hw
    have hall := h5 hw
    simp only [Pool.allReturned, Bool.and_eq_true, List.all_eq_true] at hall ⊢
    refine ⟨?_, hall.2⟩
    intro w hw
    rcases List.mem_or_eq_of_mem_set hw with hw | hw
    · exact hall.1 w hw
    · subst hw
      exact hmono (hall.1 ws (List.getElem?_mem hk))

theorem WgInv_coord (cfg : Config) (s s1 : Pool) (h : WgInv s)
    (hs : s.coordStep cfg = some s1) : WgInv s1 := by
  obtain ⟨h1, h2, h3, h4, h5, h6, h7, h8⟩ := h
  unfold Pool.coordStep at hs
  cases hc : s.coord with
  | spawning i =>
    have hw : s.waiter = .absent := by
      by_contra hne
      have := h4.1 hne
      simp [hc, CPc.phase] at this
    simp only [hc] at hs
    split_ifs at hs <;> simp only [Option.some.injEq] at hs <;> subst hs
    · refine ⟨?_, ?_, ?_, ?_, ?_, h6, h7, ?_⟩
      · intro w hw
        simp only [addWorker, List.mem_append, List.mem_singleton] at hw
        rcases hw with hw | hw
        · exact h1 w hw
        · exact hw ▸ WState.ok_start i 0
      · simp only [Pool.running, Pool.genPending, Pool.genReturned, addWorker, hc, CPc.phase,
          List.countP_append] at h2 ⊢
        simp [Worker.start, WState.returned] at h2 ⊢
        omega
      · simpa [addWorker, hc, CPc.phase] using h3
      · simpa [addWorker, hc, CPc.phase] using h4
      · simp [addWorker, hw]
      · simp [CPc.branch]
    · refine ⟨h1, ?_, ?_, ?_, ?_, h6, h7, ?_⟩
      · simpa [Pool.running, Pool.genPending, Pool.genReturned, hc, CPc.phase] using h2
      · simpa [hc, CPc.phase] using h3
      · simpa [hc, CPc.phase] using h4
      · simp [hw]
      · simp [CPc.branch]
  | addGen =>
    have hw : s.waiter = .absent := by
      by_contra hne
      have := h4.1 hne
      simp [hc, CPc.phase] at this
    have hg : s.gen = none := by
      have := h3
      simp only [hc, CPc.phase] at this
      cases hg : s.gen with
      | none => rfl
      | some g => simp [hg] at this
    simp only [hc, Option.some.injEq] at hs
    subst hs
    refine ⟨h1, ?_, ?_, ?_, ?_, h6, h7, ?_⟩
    · simp only [Pool.running, Pool.genPending, Pool.genReturned, hc, CPc.phase, hg] at h2 ⊢
      simp at h2 ⊢
      omega
    · simp [CPc.phase, hg]
    · simp [CPc.phase, hw]
    · simp [hw]
    · simp [CPc.branch]
  | goGen =>
    have hw : s.waiter = .absent := by
      by_contra hne
      have := h4.1 hne
      simp [hc, CPc.phase] at this
    have hg : s.gen = none := by
      have := h3
      simp only [hc, CPc.phase] at this
      cases hg : s.gen with
      | none => rfl
      | some g => simp [hg] at this
    simp only [hc, Option.some.injEq] at hs
    subst hs
    refine ⟨h1, ?_, ?_, ?_, ?_, h6, h7, ?_⟩
    · simp only [Pool.running, Pool.genPending, Pool.genReturned, hc, CPc.phase, hg] at h2 ⊢
      simp [generator] at h2 ⊢
      omega
    · simp [CPc.phase]
    · simp [CPc.phase, hw]
    · simp [hw]
    · simp [CPc.branch]
  | goWaiter =>
    simp only [hc, Option.some.injEq] at hs
    subst hs
    refine ⟨h1, ?_, ?_, ?_, ?_, ?_, ?_, ?_⟩
    · simpa [Pool.running, Pool.genPending, Pool.genReturned, hc, CPc.phase] using h2
    · simpa [hc, CPc.phase] using h3
    · simp [CPc.phase]
    · simp
    · have hw : s.waiter = .absent := by
        by_contra hne
        have := h4.1 hne
        simp [hc, CPc.phase] at this
      simpa [hw] using h6
    · have hw : s.waiter = .absent := by
        by_contra hne
        have := h4.1 hne
        simp [hc, CPc.phase] at this
      simpa [hw] using h7
    · simp [CPc.branch]
  | select => simp [hc] at hs
  | cancelling =>
    simp only [hc, Option.some.injEq] at hs
    subst hs
    obtain ⟨g1, g2, g3, g4, g5, g6, g7, g8⟩ :=
      WgInv_endCtx .Canceled s ⟨h1, h2, h3, h4, h5, h6, h7, h8⟩
    refine ⟨g1, ?_, ?_, ?_, g5, g6, g7, ?_⟩
    · simpa [Pool.running, Pool.genPending, Pool.genReturned, hc, CPc.phase] using g2
    · simpa [hc, CPc.phase] using g3
    · simpa [hc, CPc.phase] using g4
    · simp [CPc.branch]
  | inspect b =>
    simp only [hc, Option.some.injEq] at hs
    subst hs
    refine ⟨h1, ?_, ?_, ?_, h5, h6, h7, ?_⟩
    · simpa [Pool.running, Pool.genPending, Pool.genReturned, hc, CPc.phase] using h2
    · simpa [hc, CPc.phase] using h3
    · simpa [hc, CPc.phase] using h4
    · simpa [hc, CPc.branch] using h8
  | finishing b e =>
    simp only [hc, Option.some.injEq] at hs
    subst hs
    have hinv : WgInv { s with out := s.out ++ [Msg.finish], coord := .finishing b e } := by
      refine ⟨h1, ?_, ?_, ?_, h5, h6, h7, ?_⟩
      · simpa [Pool.running, Pool.genPending, Pool.genReturned, hc, CPc.phase] using h2
      · simpa [hc, CPc.phase] using h3
      · simpa [hc, CPc.phase] using h4
      · simpa [hc, CPc.branch] using h8
    obtain ⟨g1, g2, g3, g4, g5, g6, g7, g8⟩ := WgInv_endCtx .Canceled _ hinv
    refine ⟨g1, ?_, ?_, ?_, g5, g6, g7, ?_⟩
    · simpa [Pool.running, Pool.genPending, Pool.genReturned, CPc.phase] using g2
    · simpa [CPc.phase] using g3
    · simpa [CPc.phase] using g4
    · simpa [CPc.branch] using g8
  | terminated b e => simp [hc] at hs

theorem WgInv_select (s s1 : Pool) (b : Branch) (h : WgInv s)
    (hs : s.selectStep b = some s1) : WgInv s1 := by
  obtain ⟨h1, h2, h3, h4, h5, h6, h7, h8⟩ := h
  unfold Pool.selectStep at hs
  cases hc : s.coord <;> simp only [hc, reduceCtorEq] at hs
  cases b <;> simp only at hs <;> split_ifs at hs with hg <;>
    simp only [Option.some.injEq] at hs <;> subst hs <;>
    refine ⟨h1, ?_, ?_, ?_, h5, h6, h7, ?_⟩
  all_goals first
    | simpa [Pool.running, Pool.genPending, Pool.genReturned, hc, CPc.phase] using h2
    | simpa [hc, CPc.phase] using h3
    | simpa [hc, CPc.phase] using h4
    | simp [CPc.branch, hg]

theorem WgInv_gen (cfg : Config) (s s1 : Pool) (h : WgInv s)
    (hs : s.genStep cfg = some s1) : WgInv s1 := by
  obtain ⟨h1, h2, h3, h4, h5, h6, h7, h8⟩ := h
  unfold Pool.genStep at hs
  cases hg : s.gen with
  | none => simp [hg] at hs
  | some g =>
    have hph : 3 ≤ s.coord.phase := h3.1 (by simp [hg])
    simp only [hg] at hs
    obtain ⟨c, i, d, pc⟩ := g
    cases pc with
    | loop =>
      simp only [GState.next] at hs
      split_ifs at hs
      simp only [Option.some.injEq] at hs
      subst hs
      have hnw : ¬ (s.waiter = .closing ∨ s.waiter = .done) := by
        intro hw
        have := h5 hw
        simp [Pool.allReturned, Pool.genReturned, hg] at this
      refine ⟨h1, ?_, ?_, h4, ?_, h6, h7, h8⟩
      · simpa [Pool.running, Pool.genPending, Pool.genReturned, hg] using h2
      · simpa [hg] using h3
      · intro hw; exact absurd hw hnw
    | exiting =>
      simp only [GState.next, Option.some.injEq] at hs
      subst hs
      have hnw : ¬ (s.waiter = .closing ∨ s.waiter = .done) := by
        intro hw
        have := h5 hw
        simp [Pool.allReturned, Pool.genReturned, hg] at this
      refine ⟨h1, ?_, ?_, h4, ?_, h6, h7, h8⟩
      · have h2b : 2 ≤ s.coord.phase := by omega
        simp only [Pool.running, Pool.genPending, Pool.genReturned, hg] at h2 ⊢
        simp [h2b] at h2 ⊢
        omega
      · simpa [hg] using h3
      · intro hw; exact absurd hw hnw
    | returned => simp [GState.next] at hs

theorem WgInv_waiter (s s1 : Pool) (h : WgInv s) (hs : s.waiterStep = some s1) : WgInv s1 := by
  obtain ⟨h1, h2, h3, h4, h5, h6, h7, h8⟩ := h
  unfold Pool.waiterStep at hs
  cases hw : s.waiter <;> simp only [hw, reduceCtorEq] at hs
  · split_ifs at hs with hz
    simp only [Option.some.injEq] at hs
    subst hs
    have hph : 4 ≤ s.coord.phase := h4.1 (by simp [hw])
    have h2b : 2 ≤ s.coord.phase := by omega
    refine ⟨h1, h2, h3, ?_, ?_, ?_, ?_, h8⟩
    · simpa [hw] using h4
    · intro _
      simp only [Pool.running, Pool.genPending, hz] at h2
      have hr : s.workers.countP (fun w => !w.returned) = 0 := by
        split_ifs at h2 <;> omega
      have hg : s.genReturned = true := by
        by_contra hg
        simp only [Bool.not_eq_true] at hg
        simp [h2b, hg] at h2
        omega
      rw [List.countP_eq_zero] at hr
      simp only [Pool.allReturned, Bool.and_eq_true, List.all_eq_true]
      refine ⟨?_, hg⟩
      intro w hwm
      simpa using hr w hwm
    · simpa [hw] using h6
    · simpa [hw] using h7
  · simp only [Option.some.injEq] at hs
    subst hs
    refine ⟨h1, h2, h3, ?_, ?_, ?_, ?_, ?_⟩
    · simpa [hw] using h4
    · intro _; exact h5 (Or.inl hw)
    · simp
    · simp [hw] at h7; simp [h7]
    · simp

theorem WgInv_worker (cfg : Config) (s s1 : Pool) (k : Nat) (c : WChoice) (h : WgInv s)
    (hs : s.workerStep cfg k c = some s1) : WgInv s1 := by
  unfold Pool.workerStep at hs
  cases hk : s.workers[k]? with
  | none => simp [hk] at hs
  | some ws =>
    simp only [hk] at hs
    cases hev : s.event cfg c with
    | none => simp [hev] at hs
    | some ev =>
      simp only [hev] at hs
      cases hst : ws.step ev with
      | none => simp [hst] at hs
      | some ws1 =>
        simp only [hst] at hs
        have hok := h.1 ws (List.getElem?_mem hk)
        obtain ⟨hok1, hnr, hd⟩ := WState.ok_step ws ws1 ev hok hst
        have hbase : WgInv { s with
            workers := s.workers.set k ws1
            wg := s.wg - ((ws1.wgDones - ws.wgDones : Nat) : Int) } := by
          apply WgInv_set s k ws ws1 _ hk hok1 _ _ h
          · rw [hd, hnr]
            cases ws1.returned <;> simp
          · intro hr; rw [hnr] at hr; cases hr
        split at hs
        · rename_i t g1 hoff
          simp only [Option.some.injEq] at hs
          subst hs
          obtain ⟨g1', g2, g3, g4, g5, g6, g7, g8⟩ := hbase
          have hg : ∃ g, s.gen = some g ∧ g.pc = .loop ∧ g1.pc = .loop := by
            unfold Pool.offered at hoff
            cases hg : s.gen with
            | none => simp [hg] at hoff
            | some g =>
              refine ⟨g, rfl, ?_⟩
              simp only [hg] at hoff
              obtain ⟨c0, i, d, pc⟩ := g
              cases pc <;> simp only [GState.next] at hoff
              · split_ifs at hoff
                simp only [Option.some.injEq, Prod.mk.injEq] at hoff
                obtain ⟨-, rfl⟩ := hoff
                exact ⟨rfl, rfl⟩
              · simp at hoff
              · simp at hoff
          obtain ⟨g, hg0, hgp, hg1p⟩ := hg
          have hnw : ¬ (s.waiter = .closing ∨ s.waiter = .done) := by
            intro hw
            have := h.2.2.2.2.1 hw
            simp [Pool.allReturned, Pool.genReturned, hg0, hgp] at this
          refine ⟨g1', ?_, ?_, g4, ?_, g6, g7, g8⟩
          · simpa [Pool.running, Pool.genPending, Pool.genReturned, hg0, hgp, hg1p] using g2
          · simpa [hg0] using g3
          · intro hw; exact absurd hw hnw
        · simp only [Option.some.injEq] at hs
          subst hs
          exact hbase

theorem WgInv_taskDeadline (s : Pool) (k : Nat) (ws : WState) (h : WgInv s)
    (hk : s.workers[k]? = some ws) :
    WgInv { s with workers := s.workers.set k (ws.expire .DeadlineExceeded) } := by
  have hok := h.1 ws (List.getElem?_mem hk)
  have := WgInv_set s k ws (ws.expire .DeadlineExceeded) s.wg hk (WState.ok_expire _ _ hok)
    (by rw [WState.returned_expire]) (by rw [WState.returned_expire]; exact id) h
  exact this

theorem WgInv_init : WgInv Pool.init := by
  simp [WgInv, Pool.init, Pool.running, Pool.genPending, Pool.genReturned, CPc.phase,
    CPc.branch]

theorem WgInv_step (cfg : Config) (s : Pool) (a : Action) (s1 : Pool) (h : WgInv s)
    (hs : s.step cfg a = some s1) : WgInv s1 := by
  cases a with
  | signal =>
    simp only [Pool.step, Option.some.injEq] at hs
    subst hs
    exact h
  | deadline =>
    simp only [Pool.step, Option.some.injEq] at hs
    subst hs
    exact WgInv_endCtx _ _ h
  | taskDeadline k =>
    simp only [Pool.step] at hs
    cases hk : s.workers[k]? with
    | none => simp [hk] at hs
    | some ws =>
      simp only [hk, Option.some.injEq] at hs
      subst hs
      exact WgInv_taskDeadline s k ws h hk
  | coord => exact WgInv_coord cfg s s1 h hs
  | select b => exact WgInv_select s s1 b h hs
  | gen => exact WgInv_gen cfg s s1 h hs
  | worker k c => exact WgInv_worker cfg s s1 k c h hs
  | waiter => exact WgInv_waiter s s1 h hs

theorem WgInv_reachable (cfg : Config) (s : Pool) (h : Reachable cfg s) : WgInv s := by
  obtain ⟨as, has⟩ := h
  exact run_induction cfg WgInv (WgInv_step cfg) as Pool.init s WgInv_init has

/-! ## Runs of the pool: the pool-wide context and the coordinator -/

theorem WState.expire_tctx (e : CtxErr) (ws : WState) (h : (ws.expire e).inTask = true) :
    (ws.expire e).tctx.isSome = true := by
  unfold WState.expire at h ⊢
  by_cases hc : (ws.inTask && ws.tctx.isNone) = true
  · simp [hc]
  · simp only [hc, if_false] at h ⊢
    simp only [Bool.and_eq_true, not_and, Bool.not_eq_true] at hc
    have := hc h
    cases ht : ws.tctx <;> simp [ht] at this ⊢

theorem WState.step_tctx (ws ws1 : WState) (ev : WEvent) (hs : ws.step ev = some ws1)
    (h : ws.inTask = true → ws.tctx.isSome = true)
    (hev : ∀ t pe, ev = .recv t pe → pe.isSome = true) :
    ws1.inTask = true → ws1.tctx.isSome = true := by
  cases ev <;> cases hpc : ws.pc <;>
    simp only [WState.step, hpc, reduceCtorEq, Option.some.injEq] at hs
  case test.top =>
    split_ifs at hs <;> simp only [Option.some.injEq] at hs <;> subst hs <;>
      simp [WState.inTask, WState.unwind]
  case recv.select t pe =>
    subst hs
    intro _
    exact hev t pe rfl
  case recvClosed.select => subst hs; simp [WState.inTask, WState.unwind]
  case ctxDone.select => subst hs; simp [WState.inTask, WState.unwind]
  case leave.inDo b t =>
    have h1 := h (by simp [WState.inTask, hpc])
    cases b with
    | cancelled =>
      simp only at hs
      split_ifs at hs
      simp only [Option.some.injEq] at hs
      subst hs
      intro _; exact h1
    | completed =>
      simp only [Option.some.injEq] at hs
      subst hs
      intro _; exact h1
  case inspect.inspect t => subst hs; simp [WState.inTask]

theorem Pool.endCtx_tctx (e : CtxErr) (s : Pool)
    (h : s.ctxErr.isSome = true → ∀ ws ∈ s.workers, ws.inTask = true → ws.tctx.isSome = true) :
    ∀ ws ∈ (s.endCtx e).workers, ws.inTask = true → ws.tctx.isSome = true := by
  unfold Pool.endCtx
  split
  · rename_i e0 he
    exact h (by simp [he])
  · intro ws hws
    simp only [List.mem_map] at hws
    obtain ⟨w0, -, rfl⟩ := hws
    exact WState.expire_tctx e w0

theorem Pool.endCtx_isSome (e : CtxErr) (s : Pool) : (s.endCtx e).ctxErr.isSome = true := by
  rw [Pool.endCtx_ctxErr]; rfl

theorem Pool.endCtx_ctxErr_eq (e e1 : CtxErr) (s : Pool) (h : (s.endCtx e).ctxErr = some e1) :
    s.ctxErr = some e1 ∨ (s.ctxErr = none ∧ e1 = e) := by
  rw [Pool.endCtx_ctxErr] at h
  cases hc : s.ctxErr with
  | none => simp [hc] at h; exact Or.inr ⟨rfl, h.symm⟩
  | some e0 => simp [hc] at h; exact Or.inl (by rw [h])

theorem CtxInv_init : CtxInv Pool.init := by
  simp [CtxInv, Pool.init, CPc.printed, CtxAt]

theorem CtxInv_coord (cfg : Config) (s s1 : Pool) (h : CtxInv s)
    (hs : s.coordStep cfg = some s1) : CtxInv s1 := by
  obtain ⟨h1, h2, h3, h4⟩ := h
  unfold Pool.coordStep at hs
  cases hc : s.coord with
  | spawning i =>
    rw [hc] at h2 h4
    simp only [hc] at hs
    split_ifs at hs <;> simp only [Option.some.injEq] at hs <;> subst hs
    · refine ⟨h1, by simpa [addWorker, CPc.printed] using h2, ?_, h4⟩
      intro hsome ws hws
      simp only [addWorker, List.mem_append, List.mem_singleton] at hws
      rcases hws with hws | hws
      · exact h3 hsome ws hws
      · subst hws; simp [Worker.start, WState.inTask]
    · exact ⟨h1, by simpa [CPc.printed] using h2, h3, h4⟩
  | addGen =>
    rw [hc] at h2 h4
    simp only [hc, Option.some.injEq] at hs
    subst hs
    exact ⟨h1, by simpa [CPc.printed] using h2, h3, h4⟩
  | goGen =>
    rw [hc] at h2 h4
    simp only [hc, Option.some.injEq] at hs
    subst hs
    exact ⟨h1, by simpa [CPc.printed] using h2, h3, h4⟩
  | goWaiter =>
    rw [hc] at h2 h4
    simp only [hc, Option.some.injEq] at hs
    subst hs
    exact ⟨h1, by simpa [CPc.printed] using h2, h3, h4⟩
  | select => simp [hc] at hs
  | cancelling =>
    rw [hc] at h2 h4
    simp only [hc, Option.some.injEq] at hs
    subst hs
    refine ⟨?_, by simpa [CPc.printed, branchMsg] using h2, ?_, ?_⟩
    · intro hde
      rcases Pool.endCtx_ctxErr_eq _ _ s hde with h | h
      · simpa using h1 h
      · exact absurd h.2 (by simp)
    · intro _
      exact Pool.endCtx_tctx _ s h3
    · exact Pool.endCtx_isSome _ s
  | inspect b =>
    rw [hc] at h2 h4
    simp only [hc, Option.some.injEq] at hs
    subst hs
    refine ⟨h1, by simp [CPc.printed, h2], h3, ?_⟩
    simp only [CtxAt, Outcome]
    cases b <;> simp only [CtxAt] at h4
    · refine ⟨by simp, fun _ => ?_, by simp, h1⟩
      cases he : s.ctxErr with
      | none => simp [he] at h4
      | some e => cases e <;> simp
    · refine ⟨by simp, by simp, fun _ => ?_, h1⟩
      cases he : s.ctxErr with
      | none => simp
      | some e => cases e <;> simp [he] at h4 ⊢
    · exact ⟨fun _ => h4, by simp, by simp, h1⟩
  | finishing b e =>
    rw [hc] at h2 h4
    simp only [hc, Option.some.injEq] at hs
    subst hs
    refine ⟨?_, by simp [CPc.printed, h2], ?_, ?_⟩
    · intro hde
      rcases Pool.endCtx_ctxErr_eq _ _ _ hde with h | h
      · simpa using h1 h
      · exact absurd h.2 (by simp)
    · intro _
      exact Pool.endCtx_tctx _ _ h3
    · exact ⟨by simpa [CtxAt] using h4, Pool.endCtx_isSome _ _⟩
  | terminated b e => simp [hc] at hs

theorem CtxAt_congr (s t : Pool) (c : CPc) (he : t.ctxErr = s.ctxErr) (hl : t.lapsed = s.lapsed)
    (h : CtxAt s c) : CtxAt t c := by
  cases c with
  | inspect b => cases b <;> simpa only [CtxAt, he] using h
  | finishing b e => simpa only [CtxAt, hl] using h
  | terminated b e => simpa only [CtxAt, hl, he] using h
  | _ => simpa only [CtxAt, he] using h

theorem CtxInv_deadline (s : Pool) (h : CtxInv s) :
    CtxInv { s.endCtx .DeadlineExceeded with lapsed := true } := by
  obtain ⟨h1, h2, h3, h4⟩ := h
  refine ⟨fun _ => rfl, by simpa using h2, fun _ => Pool.endCtx_tctx _ s h3, ?_⟩
  have hne : ∀ e, (s.endCtx .DeadlineExceeded).ctxErr = some e →
      s.ctxErr = some e ∨ (s.ctxErr = none ∧ e = .DeadlineExceeded) :=
    fun e he => Pool.endCtx_ctxErr_eq _ _ s he
  simp only [Pool.endCtx_coord]
  cases hc : s.coord with
  | inspect b =>
    rw [hc] at h4
    cases b <;> simp only [CtxAt] at h4 ⊢
    · exact Pool.endCtx_isSome _ s
    · intro hcan
      rcases hne _ hcan with h | h
      · exact h4 h
      · exact absurd h.2 (by simp)
    · rw [Pool.endCtx_ctxErr, h4]; rfl
  | finishing b e =>
    rw [hc] at h4
    simp only [CtxAt, Outcome] at h4 ⊢
    exact ⟨h4.1, h4.2.1, h4.2.2.1, fun _ => trivial⟩
  | terminated b e =>
    rw [hc] at h4
    simp only [CtxAt, Outcome] at h4 ⊢
    exact ⟨⟨h4.1.1, h4.1.2.1, h4.1.2.2.1, fun _ => trivial⟩, Pool.endCtx_isSome _ s⟩
  | _ =>
    rw [hc] at h4
    simp only [CtxAt] at h4 ⊢
    intro hcan
    rcases hne _ hcan with h | h
    · exact h4 h
    · exact absurd h.2 (by simp)

theorem CtxInv_select (s s1 : Pool) (b : Branch) (h : CtxInv s)
    (hs : s.selectStep b = some s1) : CtxInv s1 := by
  obtain ⟨h1, h2, h3, h4⟩ := h
  unfold Pool.selectStep at hs
  cases hc : s.coord <;> simp only [hc, reduceCtorEq] at hs
  rw [hc] at h2 h4
  simp only [CtxAt] at h4
  cases b <;> simp only at hs <;> split_ifs at hs with hg <;>
    simp only [Option.some.injEq] at hs <;> subst hs
  · exact ⟨h1, by simp [CPc.printed, h2], h3, h4⟩
  · exact ⟨h1, by simp [CPc.printed, h2, branchMsg], h3, h4⟩
  · refine ⟨h1, by simp [CPc.printed, h2, branchMsg], h3, ?_⟩
    simp only [CtxAt]
    cases he : s.ctxErr with
    | none => simp [he] at hg
    | some e => cases e <;> simp [he] at h4 ⊢

theorem CtxInv_worker (cfg : Config) (s s1 : Pool) (k : Nat) (c : WChoice) (h : CtxInv s)
    (hs : s.workerStep cfg k c = some s1) : CtxInv s1 := by
  obtain ⟨h1, h2, h3, h4⟩ := h
  unfold Pool.workerStep at hs
  cases hk : s.workers[k]? with
  | none => simp [hk] at hs
  | some ws =>
    simp only [hk] at hs
    cases hev : s.event cfg c with
    | none => simp [hev] at hs
    | some ev =>
      simp only [hev] at hs
      cases hst : ws.step ev with
      | none => simp [hst] at hs
      | some ws1 =>
        simp only [hst] at hs
        have hw : s.ctxErr.isSome = true →
            ∀ w ∈ s.workers.set k ws1, w.inTask = true → w.tctx.isSome = true := by
          intro hsome w hwm
          rcases List.mem_or_eq_of_mem_set hwm with hwm | hwm
          · exact h3 hsome w hwm
          · subst hwm
            apply WState.step_tctx ws _ ev hst (h3 hsome ws (List.getElem?_mem hk))
            intro t pe hrecv
            subst hrecv
            cases c <;> simp only [Pool.event, Option.some.injEq, reduceCtorEq] at hev
            · cases ho : s.offered cfg with
              | none => simp [ho] at hev
              | some p =>
                simp only [ho, Option.map_some', Option.some.injEq, WEvent.recv.injEq] at hev
                rw [← hev.2]; exact hsome
            all_goals (split_ifs at hev; simp at hev)
        split at hs <;> simp only [Option.some.injEq] at hs <;> subst hs
        · exact ⟨h1, h2, hw, CtxAt_congr s _ _ rfl rfl h4⟩
        · exact ⟨h1, h2, hw, CtxAt_congr s _ _ rfl rfl h4⟩

theorem CtxInv_step (cfg : Config) (s : Pool) (a : Action) (s1 : Pool) (h : CtxInv s)
    (hs : s.step cfg a = some s1) : CtxInv s1 := by
  cases a with
  | signal =>
    simp only [Pool.step, Option.some.injEq] at hs
    subst hs
    exact ⟨h.1, h.2.1, h.2.2.1, CtxAt_congr s _ _ rfl rfl h.2.2.2⟩
  | deadline =>
    simp only [Pool.step, Option.some.injEq] at hs
    subst hs
    exact CtxInv_deadline s h
  | taskDeadline k =>
    simp only [Pool.step] at hs
    cases hk : s.workers[k]? with
    | none => simp [hk] at hs
    | some ws =>
      simp only [hk, Option.some.injEq] at hs
      subst hs
      refine ⟨h.1, h.2.1, ?_, CtxAt_congr s _ _ rfl rfl h.2.2.2⟩
      intro hsome w hwm
      rcases List.mem_or_eq_of_mem_set hwm with hwm | hwm
      · exact h.2.2.1 hsome w hwm
      · subst hwm; exact WState.expire_tctx _ ws
  | coord => exact CtxInv_coord cfg s s1 h hs
  | select b => exact CtxInv_select s s1 b h hs
  | gen =>
    simp only [Pool.step, Pool.genStep] at hs
    cases hg : s.gen with
    | none => simp [hg] at hs
    | some g =>
      simp only [hg] at hs
      split at hs <;> simp only [Option.some.injEq, reduceCtorEq] at hs <;> subst hs <;>
        exact ⟨h.1, h.2.1, h.2.2.1, CtxAt_congr s _ _ rfl rfl h.2.2.2⟩
  | worker k c => exact CtxInv_worker cfg s s1 k c h hs
  | waiter =>
    simp only [Pool.step, Pool.waiterStep] at hs
    cases hw : s.waiter <;> simp only [hw, reduceCtorEq] at hs
    · split_ifs at hs
      simp only [Option.some.injEq] at hs
      subst hs
      exact ⟨h.1, h.2.1, h.2.2.1, CtxAt_congr s _ _ rfl rfl h.2.2.2⟩
    · simp only [Option.some.injEq] at hs
      subst hs
      exact ⟨h.1, h.2.1, h.2.2.1, CtxAt_congr s _ _ rfl rfl h.2.2.2⟩

theorem CtxInv_reachable (cfg : Config) (s : Pool) (h : Reachable cfg s) : CtxInv s := by
  obtain ⟨as, has⟩ := h
  exact run_induction cfg CtxInv (CtxInv_step cfg) as Pool.init s CtxInv_init has

/-! ## Runs of the pool: the generator and the queue -/

theorem GenInv_congr (cfg : Config) (s t : Pool) (hg : t.gen = s.gen)
    (hd : t.dispatch = s.dispatch) (hq : t.queueClosed = s.queueClosed)
    (hl : s.workers.length ≤ t.workers.length) (h : GenInv cfg s) : GenInv cfg t := by
  obtain ⟨h1, h2⟩ := h
  refine ⟨?_, ?_⟩
  · intro p hp
    rw [hd] at hp
    exact Nat.lt_of_lt_of_le (h1 p hp) hl
  · rw [hg, hd, hq]
    exact h2

theorem Pool.endCtx_length (e : CtxErr) (s : Pool) :
    (s.endCtx e).workers.length = s.workers.length := by
  rcases Pool.endCtx_workers e s with h | h <;> rw [h]
  simp

theorem GenInv_init (cfg : Config) : GenInv cfg Pool.init := by
  simp [GenInv, Pool.init]

theorem GenInv_coord (cfg : Config) (s s1 : Pool) (hw : WgInv s) (h : GenInv cfg s)
    (hs : s.coordStep cfg = some s1) : GenInv cfg s1 := by
  unfold Pool.coordStep at hs
  cases hc : s.coord with
  | spawning i =>
    simp only [hc] at hs
    split_ifs at hs <;> simp only [Option.some.injEq] at hs <;> subst hs
    · exact GenInv_congr cfg s _ rfl rfl rfl (by simp [addWorker]) h
    · exact GenInv_congr cfg s _ rfl rfl rfl (Nat.le_refl _) h
  | addGen =>
    simp only [hc, Option.some.injEq] at hs
    subst hs
    exact GenInv_congr cfg s _ rfl rfl rfl (Nat.le_refl _) h
  | goGen =>
    simp only [hc, Option.some.injEq] at hs
    subst hs
    obtain ⟨h1, h2⟩ := h
    cases hg : s.gen with
    | some g =>
      have := hw.2.2.1.1 (by simp [hg])
      simp [hc, CPc.phase] at this
    | none =>
      rw [hg] at h2
      refine ⟨h1, ?_⟩
      refine ⟨rfl, (by decide : (1 : Int) ≤ maxInt), fun _ => h2.2, fun _ => rfl, fun _ =>
        ⟨fun _ => ⟨0, rfl, rfl, ?_, ?_⟩, fun hne => absurd rfl hne⟩⟩
      · simp
      · simp [h2.1]
  | goWaiter =>
    simp only [hc, Option.some.injEq] at hs
    subst hs
    exact GenInv_congr cfg s _ rfl rfl rfl (Nat.le_refl _) h
  | select => simp [hc] at hs
  | cancelling =>
    simp only [hc, Option.some.injEq] at hs
    subst hs
    exact GenInv_congr cfg s _ (by simp) (by simp) (by simp)
      (by simp [Pool.endCtx_length]) h
  | inspect b =>
    simp only [hc, Option.some.injEq] at hs
    subst hs
    exact GenInv_congr cfg s _ rfl rfl rfl (Nat.le_refl _) h
  | finishing b e =>
    simp only [hc, Option.some.injEq] at hs
    subst hs
    exact GenInv_congr cfg s _ (by simp) (by simp) (by simp)
      (by simp [Pool.endCtx_length]) h
  | terminated b e => simp [hc] at hs

theorem offered_loop (cfg : Config) (s : Pool) (t : Task) (g1 : GState)
    (h : s.offered cfg = some (t, g1)) :
    ∃ g, s.gen = some g ∧ g.pc = .loop ∧ g.i ≤ g.countT ∧
      g.next cfg.src = some (.send t, g1) ∧
      g1 = { g with i := wrap64 (g.i + 1), draws := g.draws + 1 } := by
  unfold Pool.offered at h
  cases hg : s.gen with
  | none => simp [hg] at h
  | some g =>
    simp only [hg] at h
    refine ⟨g, rfl, ?_⟩
    obtain ⟨c0, i, d, pc⟩ := g
    cases pc <;> simp only [GState.next] at h ⊢
    · split_ifs at h with hle
      simp only [Option.some.injEq, Prod.mk.injEq, GenOp.send.injEq] at h
      obtain ⟨rfl, rfl⟩ := h
      simp [hle]
    · simp at h
    · simp at h

theorem GenInv_recv (cfg : Config) (s : Pool) (k : Nat) (t : Task) (g1 : GState) (ws ws1 : WState)
    (wg1 : Int) (hk : s.workers[k]? = some ws) (hoff : s.offered cfg = some (t, g1))
    (h : GenInv cfg s) :
    GenInv cfg
      { s with
        workers := s.workers.set k ws1
        wg := wg1
        gen := some g1
        dispatch := s.dispatch ++ [(k, t)] } := by
  obtain ⟨g, hg, hpc, hle, hnext, hg1⟩ := offered_loop cfg s t g1 hoff
  obtain ⟨h1, h2⟩ := h
  rw [hg] at h2
  obtain ⟨hc, hi, hq, hbig, hsmall⟩ := h2
  have hklt : k < s.workers.length := by
    rcases Nat.lt_or_ge k s.workers.length with h | h
    · exact h
    · rw [List.getElem?_eq_none h] at hk; cases hk
  refine ⟨?_, ?_⟩
  · intro p hp
    simp only [List.mem_append, List.mem_singleton] at hp
    simp only [List.length_set]
    rcases hp with hp | hp
    · exact h1 p hp
    · subst hp; exact hklt
  · have hpc1 : g1.pc = .loop := by rw [hg1]; exact hpc
    have hc1 : g1.countT = cfg.countTasks := by rw [hg1]; exact hc
    refine ⟨hc1, by rw [hg1]; exact wrap64_le_maxInt _, fun _ => hq hpc, fun _ => hpc1, ?_⟩
    intro hlt
    refine ⟨fun _ => ?_, fun hne => absurd hpc1 hne⟩
    obtain ⟨n, hin, hdn, -, hdisp⟩ := (hsmall hlt).1 hpc
    obtain ⟨N, hN⟩ := Int.eq_ofNat_of_zero_le (show 0 ≤ cfg.countTasks by omega)
    have hnN : n < N := by omega
    have hsend := next_loop_send cfg.src N n (by omega) hnN
    have hgeq : g = ⟨(N : Int), (n : Int) + 1, n, .loop⟩ := by
      obtain ⟨c0, i0, d0, pc0⟩ := g
      simp only at hc hin hdn hpc
      subst hin hdn hpc
      simp only [GState.mk.injEq, and_true, true_and]
      omega
    rw [hgeq, hsend] at hnext
    simp only [Option.some.injEq, Prod.mk.injEq, GenOp.send.injEq] at hnext
    obtain ⟨ht, hg1'⟩ := hnext
    refine ⟨n + 1, ?_, ?_, ?_, ?_⟩
    · rw [← hg1']
    · rw [← hg1']
    · have : (N : Int) = cfg.countTasks := hN.symm
      omega
    · simp only [List.map_append, List.map_cons, List.map_nil, hdisp, List.range_succ, ← ht]

theorem GenInv_worker (cfg : Config) (s s1 : Pool) (k : Nat) (c : WChoice) (h : GenInv cfg s)
    (hs : s.workerStep cfg k c = some s1) : GenInv cfg s1 := by
  unfold Pool.workerStep at hs
  cases hk : s.workers[k]? with
  | none => simp [hk] at hs
  | some ws =>
    simp only [hk] at hs
    cases hev : s.event cfg c with
    | none => simp [hev] at hs
    | some ev =>
      simp only [hev] at hs
      cases hst : ws.step ev with
      | none => simp [hst] at hs
      | some ws1 =>
        simp only [hst] at hs
        split at hs <;> simp only [Option.some.injEq] at hs <;> subst hs
        · rename_i t g1 hoff
          exact GenInv_recv cfg s k t g1 ws ws1 _ hk hoff h
        · exact GenInv_congr cfg s _ rfl rfl rfl (by simp) h

theorem GenInv_gen (cfg : Config) (s s1 : Pool) (h : GenInv cfg s)
    (hs : s.genStep cfg = some s1) : GenInv cfg s1 := by
  unfold Pool.genStep at hs
  obtain ⟨h1, h2⟩ := h
  cases hg : s.gen with
  | none => simp [hg] at hs
  | some g =>
    rw [hg] at h2
    simp only [hg] at hs
    obtain ⟨hc, hi, hq, hbig, hsmall⟩ := h2
    obtain ⟨c0, i, d, pc⟩ := g
    simp only at hc hi hq hbig hsmall
    cases pc with
    | loop =>
      simp only [GState.next] at hs
      split_ifs at hs with hle
      simp only [Option.some.injEq] at hs
      subst hs
      have hlt : cfg.countTasks < maxInt := by omega
      refine ⟨h1, hc, hi, by simp, fun hm => absurd hm (by omega), fun _ => ?_⟩
      refine ⟨by simp, fun _ => ⟨rfl, ?_⟩⟩
      obtain ⟨n, hin, -, hn, hdisp⟩ := (hsmall hlt).1 rfl
      have : n = cfg.countTasks.toNat := by omega
      rw [← this]
      exact hdisp
    | exiting =>
      simp only [GState.next, Option.some.injEq] at hs
      subst hs
      have hlt : cfg.countTasks < maxInt := by
        by_contra hcon
        have := hbig (by omega)
        cases this
      refine ⟨h1, hc, hi, by simp, fun hm => absurd hm (by omega), fun _ => ?_⟩
      exact ⟨by simp, fun _ => (hsmall hlt).2 (by simp)⟩
    | returned => simp [GState.next] at hs

theorem GenInv_step (cfg : Config) (s : Pool) (a : Action) (s1 : Pool) (hw : WgInv s)
    (h : GenInv cfg s) (hs : s.step cfg a = some s1) : GenInv cfg s1 := by
  cases a with
  | signal =>
    simp only [Pool.step, Option.some.injEq] at hs
    subst hs
    exact GenInv_congr cfg s _ rfl rfl rfl (Nat.le_refl _) h
  | deadline =>
    simp only [Pool.step, Option.some.injEq] at hs
    subst hs
    exact GenInv_congr cfg s _ (by simp) (by simp) (by simp) (by simp [Pool.endCtx_length]) h
  | taskDeadline k =>
    simp only [Pool.step] at hs
    cases hk : s.workers[k]? with
    | none => simp [hk] at hs
    | some ws =>
      simp only [hk, Option.some.injEq] at hs
      subst hs
      exact GenInv_congr cfg s _ rfl rfl rfl (by simp) h
  | coord => exact GenInv_coord cfg s s1 hw h hs
  | select b =>
    simp only [Pool.step, Pool.selectStep] at hs
    cases hc : s.coord <;> simp only [hc, reduceCtorEq] at hs
    cases b <;> simp only at hs <;> split_ifs at hs <;>
      simp only [Option.some.injEq] at hs <;> subst hs <;>
      exact GenInv_congr cfg s _ rfl rfl rfl (Nat.le_refl _) h
  | gen => exact GenInv_gen cfg s s1 h hs
  | worker k c => exact GenInv_worker cfg s s1 k c h hs
  | waiter =>
    simp only [Pool.step, Pool.waiterStep] at hs
    cases hwt : s.waiter <;> simp only [hwt, reduceCtorEq] at hs
    · split_ifs at hs
      simp only [Option.some.injEq] at hs
      subst hs
      exact GenInv_congr cfg s _ rfl rfl rfl (Nat.le_refl _) h
    · simp only [Option.some.injEq] at hs
      subst hs
      exact GenInv_congr cfg s _ rfl rfl rfl (Nat.le_refl _) h

theorem GenInv_reachable (cfg : Config) (s : Pool) (h : Reachable cfg s) : GenInv cfg s := by
  obtain ⟨as, has⟩ := h
  have := run_induction cfg (fun s => WgInv s ∧ GenInv cfg s)
    (fun s a s1 hP hs => ⟨WgInv_step cfg s a s1 hP.1 hs, GenInv_step cfg s a s1 hP.1 hP.2 hs⟩)
    as Pool.init s ⟨WgInv_init, GenInv_init cfg⟩ has
  exact this.2

/-! ## Runs of the pool: the calls of `Do` -/

theorem classify_not_started (w : Worker) (t : Task) (e : Option CtxErr) :
    (classify w t e).started = none := by
  rcases e with _ | e
  · rfl
  · cases e <;> rfl

theorem WState.started_step (ws ws1 : WState) (ev : WEvent) (hs : ws.step ev = some ws1) :
    (∃ t pe, ev = .recv t pe ∧ ws1.started = ws.started ++ [t] ∧ ws1.pc = .inDo t) ∨
    ((∀ t pe, ev ≠ .recv t pe) ∧ ws1.started = ws.started) := by
  cases ev <;> cases hpc : ws.pc <;>
    simp only [WState.step, hpc, reduceCtorEq, Option.some.injEq] at hs
  case test.top =>
    right
    split_ifs at hs <;> simp only [Option.some.injEq] at hs <;> subst hs <;>
      exact ⟨(fun _ _ h => by cases h), rfl⟩
  case recv.select t pe =>
    left
    subst hs
    exact ⟨t, pe, rfl, by simp [WState.started, Msg.started], rfl⟩
  case recvClosed.select =>
    right
    subst hs
    exact ⟨(fun _ _ h => by cases h), by simp [WState.started, WState.unwind, Msg.started]⟩
  case ctxDone.select =>
    right
    subst hs
    exact ⟨(fun _ _ h => by cases h), by simp [WState.started, WState.unwind, Msg.started]⟩
  case leave.inDo b t =>
    right
    cases b with
    | cancelled =>
      simp only at hs
      split_ifs at hs
      simp only [Option.some.injEq] at hs
      subst hs
      exact ⟨(fun _ _ h => by cases h), by simp [WState.started, Msg.started]⟩
    | completed =>
      simp only [Option.some.injEq] at hs
      subst hs
      exact ⟨(fun _ _ h => by cases h), by simp [WState.started, Msg.started]⟩
  case inspect.inspect t =>
    right
    subst hs
    exact ⟨(fun _ _ h => by cases h), by simp [WState.started, classify_not_started]⟩

theorem WState.started_expire (e : CtxErr) (ws : WState) :
    (ws.expire e).started = ws.started := by
  unfold WState.expire
  split <;> rfl

/-- What a step of worker `k` does to the pool: worker `k` takes a step of its
own; either that step is the receive of the task the generator offers, which is
appended to `dispatch`, or it is not a receive and `dispatch` is unchanged. -/
theorem workerStep_cases (cfg : Config) (s s1 : Pool) (k : Nat) (c : WChoice)
    (hs : s.workerStep cfg k c = some s1) :
    ∃ ws ev ws1, s.workers[k]? = some ws ∧ ws.step ev = some ws1 ∧
      s1.workers = s.workers.set k ws1 ∧
      ((∃ t g1, c = .recv ∧ s.offered cfg = some (t, g1) ∧ ev = .recv t s.ctxErr ∧
          s1.dispatch = s.dispatch ++ [(k, t)]) ∨
        (c ≠ .recv ∧ (∀ t pe, ev ≠ .recv t pe) ∧ s1.dispatch = s.dispatch)) := by
  unfold Pool.workerStep at hs
  cases hk : s.workers[k]? with
  | none => simp [hk] at hs
  | some ws =>
    simp only [hk] at hs
    cases hev : s.event cfg c with
    | none => simp [hev] at hs
    | some ev =>
      simp only [hev] at hs
      cases hst : ws.step ev with
      | none => simp [hst] at hs
      | some ws1 =>
        simp only [hst] at hs
        refine ⟨ws, ev, ws1, rfl, hst, ?_⟩
        cases c with
        | recv =>
          simp only [Pool.event] at hev
          cases ho : s.offered cfg with
          | none => simp [ho] at hev
          | some p =>
            obtain ⟨t, g1⟩ := p
            simp only [ho, Option.map_some', Option.some.injEq] at hev hs
            subst hs
            exact ⟨rfl, Or.inl ⟨t, g1, rfl, rfl, hev.symm, rfl⟩⟩
        | test =>
          simp only [Pool.event, Option.some.injEq] at hev
          simp only [Option.some.injEq] at hs
          subst hs hev
          exact ⟨rfl, Or.inr ⟨(fun h => by cases h), (fun _ _ h => by cases h), rfl⟩⟩
        | recvClosed =>
          simp only [Pool.event] at hev
          split_ifs at hev
          simp only [Option.some.injEq] at hev hs
          subst hs hev
          exact ⟨rfl, Or.inr ⟨(fun h => by cases h), (fun _ _ h => by cases h), rfl⟩⟩
        | ctxDone =>
          simp only [Pool.event] at hev
          split_ifs at hev
          simp only [Option.some.injEq] at hev hs
          subst hs hev
          exact ⟨rfl, Or.inr ⟨(fun h => by cases h), (fun _ _ h => by cases h), rfl⟩⟩
        | leave b =>
          simp only [Pool.event, Option.some.injEq] at hev
          simp only [Option.some.injEq] at hs
          subst hs hev
          exact ⟨rfl, Or.inr ⟨(fun h => by cases h), (fun _ _ h => by cases h), rfl⟩⟩
        | inspect =>
          simp only [Pool.event, Option.some.injEq] at hev
          simp only [Option.some.injEq] at hs
          subst hs hev
          exact ⟨rfl, Or.inr ⟨(fun h => by cases h), (fun _ _ h => by cases h), rfl⟩⟩

theorem DoInv_congr (s t : Pool) (hw : t.workers = s.workers) (hd : t.dispatch = s.dispatch)
    (h : DoInv s) : DoInv t := by
  intro k ws hk
  rw [hw] at hk
  simp only [Pool.receivedBy, hd]
  exact h k ws hk

theorem DoInv_expire (s t : Pool) (e : CtxErr)
    (hw : t.workers = s.workers.map (WState.expire e)) (hd : t.dispatch = s.dispatch)
    (h : DoInv s) : DoInv t := by
  intro k ws hk
  rw [hw, List.getElem?_map] at hk
  cases hk0 : s.workers[k]? with
  | none => simp [hk0] at hk
  | some w0 =>
    simp only [hk0, Option.map_some', Option.some.injEq] at hk
    subst hk
    simp only [Pool.receivedBy, hd, WState.started_expire]
    exact h k w0 hk0

theorem DoInv_endCtx (s : Pool) (e : CtxErr) (h : DoInv s) : DoInv (s.endCtx e) := by
  rcases Pool.endCtx_workers e s with hw | hw
  · exact DoInv_congr s _ hw (Pool.endCtx_dispatch e s) h
  · exact DoInv_expire s _ e hw (Pool.endCtx_dispatch e s) h

theorem DoInv_set (s : Pool) (k : Nat) (ws ws1 : WState) (hk : s.workers[k]? = some ws)
    (hst : ws1.started = ws.started) (h : DoInv s) (t : Pool)
    (hw : t.workers = s.workers.set k ws1) (hd : t.dispatch = s.dispatch) : DoInv t := by
  intro j wj hj
  simp only [Pool.receivedBy, hd]
  by_cases h1 : k = j
  · subst h1
    rw [hw, getElem?_set_same _ k ws _ hk, Option.some.injEq] at hj
    subst hj
    rw [hst]
    exact h k ws hk
  · rw [hw, List.getElem?_set_ne h1] at hj
    exact h j wj hj

theorem DoInv_recv (s : Pool) (k : Nat) (ws ws1 : WState) (tk : Task)
    (hk : s.workers[k]? = some ws) (hst : ws1.started = ws.started ++ [tk]) (h : DoInv s)
    (t : Pool) (hw : t.workers = s.workers.set k ws1)
    (hd : t.dispatch = s.dispatch ++ [(k, tk)]) : DoInv t := by
  intro j wj hj
  simp only [Pool.receivedBy, hd, List.filter_append, List.map_append]
  by_cases h1 : k = j
  · subst h1
    rw [hw, getElem?_set_same _ k ws _ hk, Option.some.injEq] at hj
    subst hj
    rw [hst]
    have := h k ws hk
    simp only [Pool.receivedBy] at this
    simp [this]
  · rw [hw, List.getElem?_set_ne h1] at hj
    have := h j wj hj
    simp only [Pool.receivedBy] at this
    have hne : (k == j) = false := by simpa using h1
    simp [this, List.filter_cons, hne]

theorem DoInv_init : DoInv Pool.init := by
  intro k ws hk
  simp [Pool.init] at hk

theorem DoInv_step (cfg : Config) (s : Pool) (a : Action) (s1 : Pool) (hg : GenInv cfg s)
    (h : DoInv s) (hs : s.step cfg a = some s1) : DoInv s1 := by
  cases a with
  | signal =>
    simp only [Pool.step, Option.some.injEq] at hs
    subst hs
    exact DoInv_congr s _ rfl rfl h
  | deadline =>
    simp only [Pool.step, Option.some.injEq] at hs
    subst hs
    exact DoInv_congr (s.endCtx .DeadlineExceeded) _ rfl rfl (DoInv_endCtx s _ h)
  | taskDeadline k =>
    simp only [Pool.step] at hs
    cases hk : s.workers[k]? with
    | none => simp [hk] at hs
    | some ws =>
      simp only [hk, Option.some.injEq] at hs
      subst hs
      exact DoInv_set s k ws _ hk (WState.started_expire _ ws) h _ rfl rfl
  | coord =>
    simp only [Pool.step, Pool.coordStep] at hs
    cases hc : s.coord with
    | spawning i =>
      simp only [hc] at hs
      split_ifs at hs <;> simp only [Option.some.injEq] at hs <;> subst hs
      · intro k ws hk
        simp only [addWorker, List.getElem?_append] at hk
        split_ifs at hk with hlt
        · exact h k ws hk
        · have hge : s.workers.length ≤ k := Nat.le_of_not_lt hlt
          have hnone : s.receivedBy k = [] := by
            simp only [Pool.receivedBy, List.map_eq_nil_iff, List.filter_eq_nil_iff]
            intro p hp
            have := hg.1 p hp
            simp only [beq_iff_eq]
            omega
          have hws : ws = Worker.start ⟨i, 0, false⟩ := by
            rcases Nat.eq_zero_or_pos (k - s.workers.length) with h0 | h0
            · simp [h0] at hk; exact hk.symm
            · obtain ⟨m, hm⟩ : ∃ m, k - s.workers.length = m + 1 := ⟨_, (Nat.succ_pred_eq_of_pos h0).symm⟩
              simp [hm] at hk
          subst hws
          simp only [Pool.receivedBy, addWorker] at hnone ⊢
          rw [hnone]
          rfl
      · exact DoInv_congr s _ rfl rfl h
    | addGen =>
      simp only [hc, Option.some.injEq] at hs; subst hs; exact DoInv_congr s _ rfl rfl h
    | goGen =>
      simp only [hc, Option.some.injEq] at hs; subst hs; exact DoInv_congr s _ rfl rfl h
    | goWaiter =>
      simp only [hc, Option.some.injEq] at hs; subst hs; exact DoInv_congr s _ rfl rfl h
    | select => simp [hc] at hs
    | cancelling =>
      simp only [hc, Option.some.injEq] at hs
      subst hs
      exact DoInv_congr (s.endCtx .Canceled) _ rfl rfl (DoInv_endCtx s _ h)
    | inspect b =>
      simp only [hc, Option.some.injEq] at hs; subst hs; exact DoInv_congr s _ rfl rfl h
    | finishing b e =>
      simp only [hc, Option.some.injEq] at hs
      subst hs
      have h0 : DoInv { s with out := s.out ++ [Msg.finish], coord := .finishing b e } :=
        DoInv_congr s _ rfl rfl h
      exact DoInv_congr _ _ rfl rfl (DoInv_endCtx _ .Canceled h0)
    | terminated b e => simp [hc] at hs
  | select b =>
    simp only [Pool.step, Pool.selectStep] at hs
    cases hc : s.coord <;> simp only [hc, reduceCtorEq] at hs
    cases b <;> simp only at hs <;> split_ifs at hs <;>
      simp only [Option.some.injEq] at hs <;> subst hs <;>
      exact DoInv_congr s _ rfl rfl h
  | gen =>
    simp only [Pool.step, Pool.genStep] at hs
    cases hgn : s.gen with
    | none => simp [hgn] at hs
    | some g =>
      simp only [hgn] at hs
      split at hs <;> simp only [Option.some.injEq, reduceCtorEq] at hs <;> subst hs <;>
        exact DoInv_congr s _ rfl rfl h
  | worker k c =>
    simp only [Pool.step] at hs
    obtain ⟨ws, ev, ws1, hk, hst, hw, hcase⟩ := workerStep_cases cfg s s1 k c hs
    rcases hcase with ⟨t, g1, -, -, hev, hd⟩ | ⟨-, hne, hd⟩
    · rcases WState.started_step ws ws1 ev hst with ⟨t2, pe, he2, hstd, -⟩ | ⟨hno, -⟩
      · rw [hev] at he2
        cases he2
        exact DoInv_recv s k ws ws1 t hk hstd h s1 hw hd
      · exact absurd hev (hno _ _)
    · rcases WState.started_step ws ws1 ev hst with ⟨t2, pe, he2, -, -⟩ | ⟨-, hstd⟩
      · exact absurd he2 (hne _ _)
      · exact DoInv_set s k ws ws1 hk hstd h s1 hw hd
  | waiter =>
    simp only [Pool.step, Pool.waiterStep] at hs
    cases hwt : s.waiter <;> simp only [hwt, reduceCtorEq] at hs
    · split_ifs at hs
      simp only [Option.some.injEq] at hs
      subst hs
      exact DoInv_congr s _ rfl rfl h
    · simp only [Option.some.injEq] at hs
      subst hs
      exact DoInv_congr s _ rfl rfl h

theorem DoInv_reachable (cfg : Config) (s : Pool) (h : Reachable cfg s) : DoInv s := by
  obtain ⟨as, has⟩ := h
  have := run_induction cfg (fun s => (WgInv s ∧ GenInv cfg s) ∧ DoInv s)
    (fun s a s1 hP hs =>
      ⟨⟨WgInv_step cfg s a s1 hP.1.1 hs, GenInv_step cfg s a s1 hP.1.1 hP.1.2 hs⟩,
        DoInv_step cfg s a s1 hP.1.2 hP.2 hs⟩)
    as Pool.init s ⟨⟨WgInv_init, GenInv_init cfg⟩, DoInv_init⟩ has
  exact this.2

/-! ## The claims about runs of the pool -/

theorem running_eq_zero_iff (s : Pool) :
    s.running = 0 ↔ s.workers.all WState.returned = true := by
  simp [Pool.running, List.countP_eq_zero, List.all_eq_true]

theorem reachable_after (cfg : Config) (as : List Action)
    (h : MainWorkerpool cfg as = some (Pool.after cfg as)) : Reachable cfg (Pool.after cfg as) :=
  ⟨as, h⟩

set_option maxRecDepth 100000 in
/-- C7, as stated, fails in the states between the last return and the close: with
the constants of the source, after all three workers and the generator have
returned, the goroutine of lines 156-159 is still in `wg.Wait()` and `doneChan` is
not closed. -/
theorem all_returned_doneChan_open :
    (MainWorkerpool sourceCfg allReturnedRun).map
        (fun s => (s.allReturned, s.wg, s.waiter, s.doneClosed)) =
      some (true, 0, .waiting, false) := by
  decide

/-- C7 (amended): in every reachable state `doneChan` has been closed at most once,
and it is closed only when every spawned worker and the generator have returned;
every worker has called `wg.Done()` once if it has returned and not at all
otherwise; from the
start of the waiting goroutine on, the counter of the wait group is the number of
workers and generator that have not returned, so it is 0 exactly when all have
returned; and when all have returned and `doneChan` is not closed yet, the waiting
goroutine is able to move and its next steps (at most two: the return of
`wg.Wait()`, then `close(doneChan)`) close `doneChan`, for the first time. -/
theorem doneChan_closed_once_when_all_returned (cfg : Config) (s : Pool)
    (h : Reachable cfg s) :
    s.doneCloses ≤ 1 ∧
    (s.doneClosed = true ↔ s.doneCloses = 1) ∧
    (s.doneClosed = true → s.allReturned = true) ∧
    (∀ ws ∈ s.workers, ws.wgDones = if ws.returned then 1 else 0) ∧
    (s.waiter ≠ .absent →
      s.wg = (s.running : Int) + (if s.genReturned then 0 else 1) ∧
      (s.wg = 0 ↔ s.allReturned = true)) ∧
    (s.waiter ≠ .absent → s.allReturned = true → s.doneClosed = false →
      ∃ n s1, n ≤ 2 ∧ s.run cfg (List.replicate n .waiter) = some s1 ∧
        s1.doneClosed = true ∧ s1.doneCloses = 1) := by
  obtain ⟨h1, h2, h3, h4, h5, h6, h7, h8⟩ := WgInv_reachable cfg s h
  have hwg : s.waiter ≠ .absent →
      s.wg = (s.running : Int) + (if s.genReturned then 0 else 1) := by
    intro hw
    have hph : 2 ≤ s.coord.phase := by have := h4.1 hw; omega
    rw [h2]
    simp only [Pool.genPending, hph, true_and]
    cases s.genReturned <;> simp
  have hzero : s.waiter ≠ .absent → (s.wg = 0 ↔ s.allReturned = true) := by
    intro hw
    rw [hwg hw]
    simp only [Pool.allReturned, Bool.and_eq_true, ← running_eq_zero_iff]
    cases s.genReturned <;> simp
    omega
  refine ⟨?_, ?_, ?_, ?_, fun hw => ⟨hwg hw, hzero hw⟩, ?_⟩
  · rw [h7]; split <;> omega
  · rw [h6, h7]; split <;> simp [*]
  · intro hd; exact h5 (Or.inr (h6.1 hd))
  · intro ws hws
    obtain ⟨-, hrun, hret, -⟩ := h1 ws hws
    cases hr : ws.returned
    · simpa using (hrun hr).2.1
    · simpa using (hret hr).2
  · intro hw hall hdc
    have hnd : s.waiter ≠ .done := fun hd => by rw [h6.2 hd] at hdc; cases hdc
    have hcl : s.doneCloses = 0 := by rw [h7]; simp [hnd]
    cases hwt : s.waiter with
    | absent => exact absurd hwt hw
    | done => exact absurd hwt hnd
    | waiting =>
      have hz : s.wg = 0 := (hzero hw).2 hall
      refine ⟨2, { s with waiter := .done, doneClosed := true, doneCloses := s.doneCloses + 1 },
        Nat.le_refl _, ?_, rfl, ?_⟩
      · simp [List.replicate, Pool.run, Pool.step, Pool.waiterStep, hwt, hz]
      · simp [hcl]
    | closing =>
      refine ⟨1, { s with waiter := .done, doneClosed := true, doneCloses := s.doneCloses + 1 },
        by omega, ?_, rfl, ?_⟩
      · simp [List.replicate, Pool.run, Pool.step, Pool.waiterStep, hwt]
      · simp [hcl]

/-- C6: calling `close` leaves every worker value as it was, although its body
sets the flag on its own copy; so in every reachable state each worker started by
`addWorker` has its flag unset, however often `close` is called on it, the test of
line 58 is never true for it, and if it has returned it has done so through the
queue-closed branch or the `ctx.Done()` branch. -/
theorem close_leaves_worker_running (cfg : Config) (s : Pool) (h : Reachable cfg s)
    (ws : WState) (hws : ws ∈ s.workers) (n : Nat) :
    (∀ w : Worker, w.close = w ∧ w.closeBody.closeWorker = true) ∧
    ws.w.closeWorker = false ∧
    (Worker.close^[n] ws.w).closeWorker = false ∧
    (∀ e, ws.pc = .returned e → e = .queueClosed ∨ e = .ctxDone) ∧
    (ws.pc = .top → ws.step .test = some { ws with pc := .select }) := by
  obtain ⟨hc, -, -, hex⟩ := (WgInv_reachable cfg s h).1 ws hws
  have hiter : ∀ m : Nat, Worker.close^[m] ws.w = ws.w := by
    intro m
    induction m with
    | zero => rfl
    | succ m ih => rw [Function.iterate_succ_apply', ih]; rfl
  refine ⟨fun w => ⟨rfl, rfl⟩, hc, by rw [hiter n]; exact hc, ?_, ?_⟩
  · intro e he
    cases e with
    | closing => exact absurd he hex
    | queueClosed => exact Or.inl rfl
    | ctxDone => exact Or.inr rfl
  · intro hpc
    simp [WState.step, hpc, hc]

set_option maxRecDepth 100000 in
/-- C9, as stated, fails: with the constants of the source, when the pool-wide
deadline lapses while worker 0 is inside `Do` with task 1 and worker 1 is at its
select, the coordinator takes the `ctx.Done()` case and returns while all three
workers are still inside `Worker.start`. -/
theorem coordinator_terminated_workers_running :
    (MainWorkerpool sourceCfg timedOutRun).map (fun s => s.coord) =
      some (.terminated .timeout (some .DeadlineExceeded)) ∧
    (MainWorkerpool sourceCfg timedOutRun).map (fun s => s.workers.map WState.pc) =
      some [.inDo ⟨1, Second⟩, .select, .top] ∧
    (MainWorkerpool sourceCfg timedOutRun).map (fun s => s.workers.map WState.returned) =
      some [false, false, false] := by
  decide

/-- C9 (amended): when the coordinator has returned, the pool-wide context is done
and so is the context of every task a worker is running; if it returned on the
`doneChan` case, every spawned worker and the generator have returned before. On
the other two cases it does not wait for the workers. -/
theorem coordinator_terminated_after (cfg : Config) (s : Pool) (h : Reachable cfg s)
    (b : Branch) (e : Option CtxErr) (ht : s.coord = .terminated b e) :
    s.ctxErr.isSome = true ∧
    (∀ ws ∈ s.workers, ws.inTask = true → ws.tctx.isSome = true) ∧
    (b = .done → s.allReturned = true) := by
  obtain ⟨-, -, h3, h4⟩ := CtxInv_reachable cfg s h
  obtain ⟨-, -, -, -, g5, g6, -, g8⟩ := WgInv_reachable cfg s h
  rw [ht] at h4 g8
  simp only [CtxAt] at h4
  refine ⟨h4.2, h3 h4.2, ?_⟩
  intro hb
  subst hb
  exact g5 (Or.inr (g6.1 (g8 rfl)))

set_option maxRecDepth 100000 in
/-- C4, as stated, fails: with the constants of the source, the error read after
the select is `DeadlineExceeded`, and "time expired" is printed, both on the signal
case when the deadline lapses before line 165 is executed, and on the `doneChan`
case when the deadline lapses before line 175 is executed. -/
theorem coordinator_error_differs_from_branch :
    (MainWorkerpool sourceCfg shutdownRun).map (fun s => (s.coord, s.out)) =
      some (.finishing .shutdown (some .DeadlineExceeded), [.shutdownStart, .totalExpired]) ∧
    (MainWorkerpool sourceCfg completedLateRun).map (fun s => (s.coord, s.out)) =
      some (.finishing .done (some .DeadlineExceeded), [.allWorkersDone, .totalExpired]) := by
  decide

/-- C4 (amended): the error `e` the coordinator reads after its select took case `b`
is `DeadlineExceeded` on the `ctx.Done()` case; `Canceled` or `DeadlineExceeded` on
the signal case; nil or `DeadlineExceeded` on the `doneChan` case; it is
`DeadlineExceeded` only if the pool-wide deadline has lapsed, so that in a run
whose deadline has not lapsed it is `Canceled` on the signal case and nil on the
`doneChan` case; and the coordinator prints the line of the case, then the line of
`e` if `e` is not nil, then the finish line. -/
theorem coordinator_error_by_branch (cfg : Config) (s : Pool) (h : Reachable cfg s)
    (b : Branch) (e : Option CtxErr)
    (hc : s.coord = .finishing b e ∨ s.coord = .terminated b e) :
    (b = .timeout → e = some .DeadlineExceeded) ∧
    (b = .shutdown → e = some .Canceled ∨ e = some .DeadlineExceeded) ∧
    (b = .done → e = none ∨ e = some .DeadlineExceeded) ∧
    (e = some .DeadlineExceeded → s.lapsed = true) ∧
    (s.lapsed = false → (b = .shutdown → e = some .Canceled) ∧ (b = .done → e = none)) ∧
    (s.coord = .finishing b e → s.out = branchMsg b :: verdict e) ∧
    (s.coord = .terminated b e → s.out = branchMsg b :: verdict e ++ [.finish]) := by
  obtain ⟨-, h2, -, h4⟩ := CtxInv_reachable cfg s h
  have hout : Outcome s.lapsed b e := by
    rcases hc with hc | hc <;> rw [hc] at h4 <;> simp only [CtxAt] at h4
    · exact h4
    · exact h4.1
  obtain ⟨o1, o2, o3, o4⟩ := hout
  refine ⟨o1, o2, o3, o4, ?_, ?_, ?_⟩
  · intro hl
    have hne : e ≠ some .DeadlineExceeded := fun he => by rw [o4 he] at hl; cases hl
    refine ⟨fun hb => ?_, fun hb => ?_⟩
    · rcases o2 hb with h | h
      · exact h
      · exact absurd h hne
    · rcases o3 hb with h | h
      · exact h
      · exact absurd h hne
  · intro hf; rw [h2, hf]; rfl
  · intro hf; rw [h2, hf]; rfl

set_option maxRecDepth 100000 in
/-- C8, as stated, fails: with the constants of the source, worker 0 is at its
select and the generator is blocked sending task 1 when the pool-wide deadline
lapses; the select of worker 0 can then take the receive case, after which worker 0
is inside `Do` with task 1. -/
theorem worker_receives_after_ctx_done :
    (MainWorkerpool sourceCfg lateReceiveRun).map
        (fun s => (s.ctxErr, s.workers.map WState.pc, s.dispatch)) =
      some (some .DeadlineExceeded, [.select, .top, .top], []) ∧
    (MainWorkerpool sourceCfg (lateReceiveRun ++ [.worker 0 .recv])).map
        (fun s => (s.ctxErr, s.workers.map WState.pc, s.dispatch)) =
      some (some .DeadlineExceeded, [.inDo ⟨1, Second⟩, .top, .top], [(0, ⟨1, Second⟩)]) :=
  ⟨rfl, rfl⟩

/-- C8 (amended): once the pool-wide context is done, a worker at its select can
always take the `ctx.Done()` case and return without receiving; every step it can
take is that one, or the return through the queue-closed case when the queue is
closed, or, when the generator is blocked in a send, the receive of that task
followed by the call of `Do` under a task context that is done from the start, with
the error of the pool-wide context; when the queue is neither closed nor offered a
task, the `ctx.Done()` case is its only step. -/
theorem select_when_ctx_done (cfg : Config) (s : Pool) (k : Nat) (ws : WState)
    (hk : s.workers[k]? = some ws) (hpc : ws.pc = .select) (hdone : s.ctxErr.isSome = true) :
    (∃ s1, s.step cfg (.worker k .ctxDone) = some s1 ∧
      s1.workers[k]?.map WState.pc = some (.returned .ctxDone) ∧ s1.dispatch = s.dispatch) ∧
    (∀ c s1, s.step cfg (.worker k c) = some s1 →
      c = .ctxDone ∨
      (c = .recvClosed ∧ s.queueClosed = true ∧
        s1.workers[k]?.map WState.pc = some (.returned .queueClosed) ∧
        s1.dispatch = s.dispatch) ∨
      (c = .recv ∧ ∃ t g1, s.offered cfg = some (t, g1) ∧
        s1.workers[k]?.map (fun w => (w.pc, w.tctx)) = some (.inDo t, s.ctxErr) ∧
        s1.dispatch = s.dispatch ++ [(k, t)])) ∧
    (s.queueReady cfg = false → ∀ c s1, s.step cfg (.worker k c) = some s1 → c = .ctxDone) := by
  have hall : ∀ c s1, s.step cfg (.worker k c) = some s1 →
      c = .ctxDone ∨
      (c = .recvClosed ∧ s.queueClosed = true ∧
        s1.workers[k]?.map WState.pc = some (.returned .queueClosed) ∧
        s1.dispatch = s.dispatch) ∨
      (c = .recv ∧ ∃ t g1, s.offered cfg = some (t, g1) ∧
        s1.workers[k]?.map (fun w => (w.pc, w.tctx)) = some (.inDo t, s.ctxErr) ∧
        s1.dispatch = s.dispatch ++ [(k, t)]) := by
    intro c s1 hs
    simp only [Pool.step, Pool.workerStep, hk] at hs
    cases c with
    | ctxDone => exact Or.inl rfl
    | test => simp [Pool.event, WState.step, hpc] at hs
    | leave b => simp [Pool.event, WState.step, hpc] at hs
    | inspect => simp [Pool.event, WState.step, hpc] at hs
    | recvClosed =>
      refine Or.inr (Or.inl ⟨rfl, ?_⟩)
      simp only [Pool.event] at hs
      split_ifs at hs with hq
      simp only [WState.step, hpc, Option.some.injEq] at hs
      subst hs
      refine ⟨hq, ?_, rfl⟩
      simp only [getElem?_set_same _ k ws _ hk, Option.map_some']
      rfl
    | recv =>
      refine Or.inr (Or.inr ⟨rfl, ?_⟩)
      simp only [Pool.event] at hs
      cases ho : s.offered cfg with
      | none => simp [ho] at hs
      | some p =>
        obtain ⟨t, g1⟩ := p
        simp only [ho, Option.map_some', WState.step, hpc, Option.some.injEq] at hs
        subst hs
        refine ⟨t, g1, rfl, ?_, rfl⟩
        simp only [getElem?_set_same _ k ws _ hk, Option.map_some']
  refine ⟨?_, hall, ?_⟩
  · have hex : ∃ s1, s.step cfg (.worker k .ctxDone) = some s1 ∧
        s1.workers = s.workers.set k
          (WState.unwind { ws with out := ws.out ++ [.workerCancelled ws.w.ID] } .ctxDone) ∧
        s1.dispatch = s.dispatch := by
      simp only [Pool.step, Pool.workerStep, hk, Pool.event, hdone, if_true, WState.step, hpc]
      exact ⟨_, rfl, rfl, rfl⟩
    obtain ⟨s1, h1, h2, h3⟩ := hex
    refine ⟨s1, h1, ?_, h3⟩
    rw [h2, getElem?_set_same _ k ws _ hk]
    rfl
  · intro hq c s1 hs
    simp only [Pool.queueReady, Bool.or_eq_false_iff] at hq
    rcases hall c s1 hs with h | h | h
    · exact h
    · rw [h.2.1] at hq; cases hq.1
    · obtain ⟨-, t, g1, ho, -⟩ := h
      rw [ho] at hq; cases hq.2

theorem count_started (L : List (Nat × Task)) (k : Nat) (id : Int) :
    ((L.filter (fun p => p.1 == k)).map (Task.ID ∘ Prod.snd)).count id =
      L.countP (fun p => p.1 == k && p.2.ID == id) := by
  induction L with
  | nil => rfl
  | cons p L ih =>
    by_cases h1 : p.1 = k <;> by_cases h2 : p.2.ID = id <;>
      simp [List.filter_cons, List.countP_cons, List.count_cons, h1, h2, ih]

theorem count_dispatched (L : List (Nat × Task)) (id : Int) :
    (L.map (fun p => p.2.ID)).count id = L.countP (fun p => p.2.ID == id) := by
  induction L with
  | nil => rfl
  | cons p L ih =>
    by_cases h2 : p.2.ID = id <;> simp [List.countP_cons, List.count_cons, h2, ih]

theorem countP_two_workers (L : List (Nat × Task)) (k j : Nat) (id : Int) (h : j ≠ k) :
    L.countP (fun p => p.1 == k && p.2.ID == id) +
      L.countP (fun p => p.1 == j && p.2.ID == id) ≤ L.countP (fun p => p.2.ID == id) := by
  induction L with
  | nil => simp
  | cons p L ih =>
    by_cases h1 : p.1 = k <;> by_cases h3 : p.1 = j <;> by_cases h2 : p.2.ID = id <;>
      simp [List.countP_cons, h1, h2, h3, h, Ne.symm h] <;> omega

/-- C10: in every reachable state in which the queue has been closed, the tasks
received from the queue, in the order of their receipt, are exactly the
`countTasks` tasks the generator built, in the order it built them; each identity
from 1 to `countTasks` occurs once among them and no other identity occurs; each was
received by a worker of the pool; every worker has called `Do` on exactly the tasks
it received, in that order (line 29, the first line `Do` prints, is in its output
once for each); so for each identity from 1 to `countTasks` there is one worker
that has called `Do` on that task, once, and no other worker has, and no worker has
called `Do` on any other identity. Moreover, in any state, a worker that receives a
task is next inside `Do` with that task. -/
theorem every_task_run_once (cfg : Config) (s : Pool) (h : Reachable cfg s)
    (hq : s.queueClosed = true) :
    s.dispatch.map Prod.snd = (List.range cfg.countTasks.toNat).map (nthTask cfg.src) ∧
    s.dispatch.map (fun p => p.2.ID) =
      (List.range cfg.countTasks.toNat).map (fun k : Nat => (k : Int) + 1) ∧
    (∀ id : Int, (s.dispatch.map (fun p => p.2.ID)).count id =
      if 1 ≤ id ∧ id ≤ cfg.countTasks then 1 else 0) ∧
    (∀ p ∈ s.dispatch, p.1 < s.workers.length) ∧
    (∀ (k : Nat) (ws : WState), s.workers[k]? = some ws → ws.started = s.receivedBy k) ∧
    (∀ id : Int, 1 ≤ id → id ≤ cfg.countTasks →
      ∃ (k : Nat) (ws : WState), s.workers[k]? = some ws ∧
        (ws.started.map Task.ID).count id = 1 ∧
        ∀ (j : Nat) (wj : WState), s.workers[j]? = some wj → j ≠ k →
          (wj.started.map Task.ID).count id = 0) ∧
    (∀ id : Int, ¬ (1 ≤ id ∧ id ≤ cfg.countTasks) →
      ∀ (k : Nat) (ws : WState), s.workers[k]? = some ws →
        (ws.started.map Task.ID).count id = 0) ∧
    (∀ (s0 s1 : Pool) (k : Nat), s0.step cfg (.worker k .recv) = some s1 →
      ∃ (t : Task) (ws ws1 : WState), s0.workers[k]? = some ws ∧ s1.workers[k]? = some ws1 ∧
        ws1.pc = .inDo t ∧ ws1.started = ws.started ++ [t] ∧
        s1.dispatch = s0.dispatch ++ [(k, t)]) := by
  obtain ⟨h1, h2⟩ := GenInv_reachable cfg s h
  have hdo := DoInv_reachable cfg s h
  have hstep : ∀ (s0 s1 : Pool) (k : Nat), s0.step cfg (.worker k .recv) = some s1 →
      ∃ (t : Task) (ws ws1 : WState), s0.workers[k]? = some ws ∧ s1.workers[k]? = some ws1 ∧
        ws1.pc = .inDo t ∧ ws1.started = ws.started ++ [t] ∧
        s1.dispatch = s0.dispatch ++ [(k, t)] := by
    intro s0 s1 k hs
    simp only [Pool.step] at hs
    obtain ⟨ws, ev, ws1, hk, hst, hw, hcase⟩ := workerStep_cases cfg s0 s1 k .recv hs
    rcases hcase with ⟨t, g1, -, -, hev, hd⟩ | ⟨hne, -, -⟩
    · rcases WState.started_step ws ws1 ev hst with ⟨t2, pe, he2, hstd, hpc⟩ | ⟨hno, -⟩
      · rw [hev] at he2
        cases he2
        exact ⟨t, ws, ws1, hk, by rw [hw]; exact getElem?_set_same _ k ws _ hk, hpc, hstd, hd⟩
      · exact absurd hev (hno _ _)
    · exact absurd rfl hne
  cases hg : s.gen with
  | none =>
    rw [hg] at h2
    rw [h2.2] at hq
    cases hq
  | some g =>
    rw [hg] at h2
    obtain ⟨-, -, hloop, hbig, hsmall⟩ := h2
    have hne : g.pc ≠ .loop := fun hl => by rw [hloop hl] at hq; cases hq
    have hlt : cfg.countTasks < maxInt := by
      by_contra hcon
      exact hne (hbig (by omega))
    have hd := ((hsmall hlt).2 hne).2
    have hid : s.dispatch.map (fun p => p.2.ID) =
        (List.range cfg.countTasks.toNat).map (fun k : Nat => (k : Int) + 1) := by
      have := congrArg (List.map Task.ID) hd
      simpa [List.map_map, Function.comp_def, nthTask] using this
    have hcount : ∀ id : Int, (s.dispatch.map (fun p => p.2.ID)).count id =
        if 1 ≤ id ∧ id ≤ cfg.countTasks then 1 else 0 := by
      intro id
      rw [hid]
      have hnd : ((List.range cfg.countTasks.toNat).map (fun k : Nat => (k : Int) + 1)).Nodup := by
        apply List.Nodup.map _ (List.nodup_range _)
        intro a b hab
        simp only at hab
        omega
      rw [List.count_eq_of_nodup hnd]
      congr 1
      simp only [List.mem_map, List.mem_range, eq_iff_iff]
      constructor
      · rintro ⟨k, hk, rfl⟩
        omega
      · rintro ⟨h1, h2⟩
        exact ⟨(id - 1).toNat, by omega, by omega⟩
    have hworker : ∀ (id : Int) (k : Nat) (ws : WState), s.workers[k]? = some ws →
        (ws.started.map Task.ID).count id =
          s.dispatch.countP (fun p => p.1 == k && p.2.ID == id) := by
      intro id k ws hk
      rw [hdo k ws hk, Pool.receivedBy, List.map_map, count_started]
    refine ⟨hd, hid, hcount, h1, hdo, ?_, ?_, hstep⟩
    · intro id hid1 hid2
      have htot : s.dispatch.countP (fun p => p.2.ID == id) = 1 := by
        rw [← count_dispatched, hcount id, if_pos ⟨hid1, hid2⟩]
      have hpos : 0 < s.dispatch.countP (fun p => p.2.ID == id) := by omega
      rw [List.countP_pos_iff] at hpos
      obtain ⟨p, hp, hpid⟩ := hpos
      have hk : p.1 < s.workers.length := h1 p hp
      refine ⟨p.1, s.workers[p.1], List.getElem?_eq_getElem hk, ?_, ?_⟩
      · rw [hworker id p.1 _ (List.getElem?_eq_getElem hk)]
        have hge : 0 < s.dispatch.countP (fun q => q.1 == p.1 && q.2.ID == id) := by
          rw [List.countP_pos_iff]
          exact ⟨p, hp, by simpa using hpid⟩
        have hle : s.dispatch.countP (fun q => q.1 == p.1 && q.2.ID == id) ≤
            s.dispatch.countP (fun q => q.2.ID == id) := by
          apply List.countP_mono_left
          intro x _ hx
          simp only [Bool.and_eq_true] at hx
          exact hx.2
        omega
      · intro j wj hj hjk
        rw [hworker id j wj hj]
        have h2w := countP_two_workers s.dispatch p.1 j id hjk
        have hge : 0 < s.dispatch.countP (fun q => q.1 == p.1 && q.2.ID == id) := by
          rw [List.countP_pos_iff]
          exact ⟨p, hp, by simpa using hpid⟩
        omega
    · intro id hno k ws hk
      rw [hworker id k ws hk]
      have htot : s.dispatch.countP (fun p => p.2.ID == id) = 0 := by
        rw [← count_dispatched, hcount id, if_neg hno]
      have hle : s.dispatch.countP (fun q => q.1 == k && q.2.ID == id) ≤
          s.dispatch.countP (fun q => q.2.ID == id) := by
        apply List.countP_mono_left
        intro x _ hx
        simp only [Bool.and_eq_true] at hx
        exact hx.2
      omega

/-- C5 fails on the code: a worker that has received and run two tasks is back at
the top of its loop with both task contexts unreleased and no cancel function
called; the two calls happen only when the worker returns. -/
theorem worker_defers_accumulate :
    ((Worker.start ⟨1, 0, false⟩).run
        [.test, .recv ⟨1, Second⟩ none, .leave .completed, .inspect,
          .test, .recv ⟨2, Second⟩ none, .leave .completed, .inspect]).map
        (fun s => (s.pc, s.unreleased, s.released)) = some (.top, 2, []) ∧
    ((Worker.start ⟨1, 0, false⟩).run
        [.test, .recv ⟨1, Second⟩ none, .leave .completed, .inspect,
          .test, .recv ⟨2, Second⟩ none, .leave .completed, .inspect,
          .test, .recvClosed]).map
        (fun s => (s.pc, s.unreleased, s.released)) =
      some (.returned .queueClosed, 0, [2, 1]) := by
  decide

/-! ## Instances of the theorems above on sample runs -/

set_option maxRecDepth 100000 in
/-- Instance of the amended C7: the state at the end of `completedRun`. -/
theorem doneChan_closed_once_when_all_returned_witness :
    Reachable sourceCfg (Pool.after sourceCfg completedRun) ∧
    (Pool.after sourceCfg completedRun).doneClosed = true ∧
    (Pool.after sourceCfg completedRun).doneCloses ≤ 1 ∧
    ((Pool.after sourceCfg completedRun).doneClosed = true →
      (Pool.after sourceCfg completedRun).allReturned = true) :=
  ⟨reachable_after sourceCfg completedRun (by decide), by decide,
    (doneChan_closed_once_when_all_returned sourceCfg (Pool.after sourceCfg completedRun)
      (reachable_after sourceCfg completedRun (by decide))).1,
    (doneChan_closed_once_when_all_returned sourceCfg (Pool.after sourceCfg completedRun)
      (reachable_after sourceCfg completedRun (by decide))).2.2.1⟩

set_option maxRecDepth 100000 in
/-- Instance of the theorem for C6: worker 0 at the end of `completedRun`. -/
theorem close_leaves_worker_running_witness :
    Reachable sourceCfg (Pool.after sourceCfg completedRun) ∧
    (Pool.after sourceCfg completedRun).workers.headD (Worker.start ⟨0, 0, false⟩) ∈
      (Pool.after sourceCfg completedRun).workers ∧
    ((Pool.after sourceCfg completedRun).workers.headD (Worker.start ⟨0, 0, false⟩)).w.closeWorker
      = false ∧
    (Worker.close^[3]
      ((Pool.after sourceCfg completedRun).workers.headD (Worker.start ⟨0, 0, false⟩)).w).closeWorker
      = false :=
  ⟨reachable_after sourceCfg completedRun (by decide), by decide,
    (close_leaves_worker_running sourceCfg (Pool.after sourceCfg completedRun)
      (reachable_after sourceCfg completedRun (by decide)) _ (by decide) 3).2.1,
    (close_leaves_worker_running sourceCfg (Pool.after sourceCfg completedRun)
      (reachable_after sourceCfg completedRun (by decide)) _ (by decide) 3).2.2.1⟩

set_option maxRecDepth 100000 in
/-- Instance of the amended C9: the state at the end of `timedOutRun`. -/
theorem coordinator_terminated_after_witness :
    Reachable sourceCfg (Pool.after sourceCfg timedOutRun) ∧
    (Pool.after sourceCfg timedOutRun).coord = .terminated .timeout (some .DeadlineExceeded) ∧
    (Pool.after sourceCfg timedOutRun).ctxErr.isSome = true ∧
    (Branch.timeout = Branch.done → (Pool.after sourceCfg timedOutRun).allReturned = true) :=
  ⟨reachable_after sourceCfg timedOutRun (by decide), by decide,
    (coordinator_terminated_after sourceCfg (Pool.after sourceCfg timedOutRun)
      (reachable_after sourceCfg timedOutRun (by decide)) .timeout (some .DeadlineExceeded)
      (by decide)).1,
    (coordinator_terminated_after sourceCfg (Pool.after sourceCfg timedOutRun)
      (reachable_after sourceCfg timedOutRun (by decide)) .timeout (some .DeadlineExceeded)
      (by decide)).2.2⟩

set_option maxRecDepth 100000 in
/-- Instance of the amended C4: the state at the end of `shutdownRun`. -/
theorem coordinator_error_by_branch_witness :
    Reachable sourceCfg (Pool.after sourceCfg shutdownRun) ∧
    (Pool.after sourceCfg shutdownRun).coord = .finishing .shutdown (some .DeadlineExceeded) ∧
    (some CtxErr.DeadlineExceeded = some .DeadlineExceeded →
      (Pool.after sourceCfg shutdownRun).lapsed = true) :=
  ⟨reachable_after sourceCfg shutdownRun (by decide), by decide,
    (coordinator_error_by_branch sourceCfg (Pool.after sourceCfg shutdownRun)
      (reachable_after sourceCfg shutdownRun (by decide)) .shutdown (some .DeadlineExceeded)
      (Or.inl (by decide))).2.2.2.1⟩

set_option maxRecDepth 100000 in
/-- Instance of the amended C8: worker 0 at the end of `lateReceiveRun`. -/
theorem select_when_ctx_done_witness :
    (Pool.after sourceCfg lateReceiveRun).workers[0]? =
      some ((Pool.after sourceCfg lateReceiveRun).workers.headD (Worker.start ⟨0, 0, false⟩)) ∧
    ((Pool.after sourceCfg lateReceiveRun).workers.headD (Worker.start ⟨0, 0, false⟩)).pc
      = .select ∧
    (Pool.after sourceCfg lateReceiveRun).ctxErr.isSome = true ∧
    ∃ s1, (Pool.after sourceCfg lateReceiveRun).step sourceCfg (.worker 0 .ctxDone) = some s1 ∧
      s1.workers[0]?.map WState.pc = some (.returned .ctxDone) ∧
      s1.dispatch = (Pool.after sourceCfg lateReceiveRun).dispatch :=
  ⟨by decide, by decide, by decide,
    (select_when_ctx_done sourceCfg (Pool.after sourceCfg lateReceiveRun) 0
      ((Pool.after sourceCfg lateReceiveRun).workers.headD (Worker.start ⟨0, 0, false⟩))
      (by decide) (by decide) (by decide)).1⟩

set_option maxRecDepth 100000 in
/-- Instance of the theorem for C10: the state at the end of `completedRun`, where
worker 0 has called `Do` on the ten tasks it received. -/
theorem every_task_run_once_witness :
    Reachable sourceCfg (Pool.after sourceCfg completedRun) ∧
    (Pool.after sourceCfg completedRun).queueClosed = true ∧
    (Pool.after sourceCfg completedRun).dispatch.map (fun p => p.2.ID) =
      (List.range sourceCfg.countTasks.toNat).map (fun k : Nat => (k : Int) + 1) ∧
    (Pool.after sourceCfg completedRun).workers[0]? =
      some ((Pool.after sourceCfg completedRun).workers.headD (Worker.start ⟨0, 0, false⟩)) ∧
    ((Pool.after sourceCfg completedRun).workers.headD (Worker.start ⟨0, 0, false⟩)).started =
      (Pool.after sourceCfg completedRun).receivedBy 0 ∧
    ((Pool.after sourceCfg completedRun).receivedBy 0).map Task.ID =
      [1, 2, 3, 4, 5, 6, 7, 8, 9, 10] :=
  ⟨reachable_after sourceCfg completedRun (by decide), by decide,
    (every_task_run_once sourceCfg (Pool.after sourceCfg completedRun)
      (reachable_after sourceCfg completedRun (by decide)) (by decide)).2.1,
    by decide,
    (every_task_run_once sourceCfg (Pool.after sourceCfg completedRun)
      (reachable_after sourceCfg completedRun (by decide)) (by decide)).2.2.2.2.1 0 _
      (by decide),
    by decide⟩

end Workerpool
